import Mathlib

/-!
The subscription loop of `fetcher` (rebeccabilbro/ursula).

A shallow embedding of `src/fetcher/fetcher.go`: the variables of `sub.loop`, one
iteration of its `for { select { ... } }` as a function of the case that fires, and the
ordered log of what the loop does to the outside (launching a fetch, receiving a fetch
result, appending to `pending`, sending on `updates`, answering the closer, closing
`updates`).

Modelling conventions.
* A `time.Time` is an integer number of nanoseconds counted from the zero `Time`; a
  `time.Duration` is an integer number of nanoseconds, and `Time.Sub` saturates at the
  ends of the 64-bit `Duration` range as the Go library documents.
* An `error` is `Option Error`; `none` is `nil`.
* `seen`, a `map[string]bool` whose entries are only ever set to `true`, is the list of
  its keys; `seen[id]` is `id ∈ seen`.
* A blocked channel operation is a case that cannot fire: `none`.
* The goroutines launched by the fetch case and the buffer of the channel `fetchDone`
  holds are the state of `System`, which interleaves their sends with the iterations of
  the loop.
-/

namespace fetcher

/-- An Item is a stripped-down RSS feed item. -/
structure Item where
  Title : String
  Channel : String
  GUID : String
deriving DecidableEq, Repr

/-- Go `error` values other than `nil`. -/
abbrev Error := String

/-- Instants, in nanoseconds from the zero `time.Time`. -/
abbrev Time := Int

/-- Elapsed time in nanoseconds (`time.Duration`, an `int64`). -/
abbrev Duration := Int

/-- Constant `time.Second`. -/
def Second : Duration := 1000000000

/-- Largest `time.Duration`. -/
def maxDuration : Duration := 2 ^ 63 - 1

/-- Smallest `time.Duration`. -/
def minDuration : Duration := -(2 ^ 63)

/-- Method `t.After(u)`: whether `t` is after `u`. -/
def Time.After (t u : Time) : Bool := decide (u < t)

/-- Method `t.Sub(u)`: the duration `t - u`, saturated to the `Duration` range. -/
def Time.Sub (t u : Time) : Duration :=
  if maxDuration < t - u then maxDuration
  else if t - u < minDuration then minDuration
  else t - u

/-- Method `t.Add(d)`. -/
def Time.Add (t : Time) (d : Duration) : Time := t + d

/-- The local type `fetchResult` of `sub.loop`. -/
structure fetchResult where
  fetched : List Item
  next : Time
  err : Option Error
deriving DecidableEq, Repr

/-- A channel of `fetchResult`, known by its capacity (`make(chan fetchResult, cap)`). -/
structure Chan where
  cap : Nat
deriving DecidableEq, Repr

/-- Constant `maxPending` of `sub.loop`. -/
def maxPending : Nat := 10

/-- The local variables of `sub.loop`, and whether the loop has executed `return`. -/
structure LoopVars where
  fetchDone : Option Chan
  pending : List Item
  next : Time
  err : Option Error
  seen : List String
  returned : Bool
deriving DecidableEq, Repr

/-- The variables as `sub.loop` declares them, before the first iteration. -/
def LoopVars.init : LoopVars :=
  { fetchDone := none, pending := [], next := 0, err := none, seen := [], returned := false }

/-- The case of the `select` that fires in one iteration, with what the environment
supplies to it.
* `startFetch now fired`: `now` is the reading of `time.Now()` at the top of the iteration
  (the one `fetchDelay` is computed from), `fired` the instant the timer case is taken.
* `fetchDone result now`: `result` is the value received from `fetchDone`, `now` the
  reading of `time.Now()` in the failure branch (consulted only when `result.err` is
  non-nil).
* `closing`: a closer's reply channel is received from `s.closing`.
* `send`: a consumer takes `first` from `s.updates`. -/
inductive Event where
  | startFetch (now fired : Time)
  | fetchDone (result : fetchResult) (now : Time)
  | closing
  | send
deriving DecidableEq, Repr

/-- What the loop does, in program order. -/
inductive Action where
  | launch
  | recv (result : fetchResult)
  | append (item : Item)
  | send (item : Item)
  | reply (err : Option Error)
  | closeUpdates
deriving DecidableEq, Repr

/-- The delay computed at the top of an iteration:
`var fetchDelay time.Duration; if now := time.Now(); next.After(now) { fetchDelay = next.Sub(now) }`. -/
def fetchDelay (next now : Time) : Duration :=
  if Time.After next now then Time.Sub next now else 0

/-- The guard of the fetch case: `fetchDone == nil && len(pending) < maxPending`. -/
def startFetchEnabled (v : LoopVars) : Bool :=
  v.fetchDone.isNone && decide (v.pending.length < maxPending)

/-- The loop `for _, item := range fetched { if id := item.GUID; !seen[id] { ... } }`,
with the appends it performs. -/
def rangeFetched : List Item → LoopVars → LoopVars × List Action
  | [], v => (v, [])
  | item :: rest, v =>
    if item.GUID ∈ v.seen then rangeFetched rest v
    else
      let r := rangeFetched rest { v with pending := v.pending ++ [item], seen := item.GUID :: v.seen }
      (r.1, Action.append item :: r.2)

/-- The body of `case result := <-fetchDone:`. -/
def onFetchDone (v : LoopVars) (result : fetchResult) (now : Time) : LoopVars × List Action :=
  let v1 := { v with fetchDone := none, next := result.next, err := result.err }
  if result.err.isSome then
    ({ v1 with next := Time.Add now (10 * Second) }, [Action.recv result])
  else
    let r := rangeFetched result.fetched v1
    (r.1, Action.recv result :: r.2)

/-- One iteration of `sub.loop` in which the given case fires: the new variables and the
actions performed, or `none` when that case cannot fire (its channel is nil, nobody is
there to communicate with, or the loop has returned). -/
def sub.loopStep (v : LoopVars) : Event → Option (LoopVars × List Action)
  | Event.startFetch _ _ =>
    if v.returned then none
    else if startFetchEnabled v then
      some ({ v with fetchDone := some { cap := 1 } }, [Action.launch])
    else none
  | Event.fetchDone result now =>
    if v.returned then none
    else
      match v.fetchDone with
      | none => none
      | some _ => some (onFetchDone v result now)
  | Event.closing =>
    if v.returned then none
    else some ({ v with returned := true }, [Action.reply v.err, Action.closeUpdates])
  | Event.send =>
    if v.returned then none
    else
      match v.pending with
      | [] => none
      | first :: rest => some ({ v with pending := rest }, [Action.send first])

/-- The loop variables together with everything the loop has done so far. -/
structure Config where
  vars : LoopVars
  log : List Action
deriving DecidableEq, Repr

/-- A subscription as `Subscribe` leaves it: the loop is about to run its first iteration. -/
def Subscribe : Config := { vars := LoopVars.init, log := [] }

/-- One iteration from a configuration, extending the log. -/
def Config.step (c : Config) (e : Event) : Option Config :=
  match sub.loopStep c.vars e with
  | none => none
  | some r => some { vars := r.1, log := c.log ++ r.2 }

/-- Function `sub.loop` along a schedule of cases. -/
def sub.loop (c : Config) : List Event → Option Config
  | [] => some c
  | e :: es =>
    match c.step e with
    | none => none
    | some c' => sub.loop c' es

/-- The items sent on `updates`, in order. -/
def sent : List Action → List Item
  | [] => []
  | Action.send item :: l => item :: sent l
  | _ :: l => sent l

/-- The items appended to `pending`, in order. -/
def appended : List Action → List Item
  | [] => []
  | Action.append item :: l => item :: appended l
  | _ :: l => appended l

/-- The fetch results the loop has received, in order. -/
def received : List Action → List fetchResult
  | [] => []
  | Action.recv r :: l => r :: received l
  | _ :: l => received l

/-- The errors sent to closers, in order. -/
def replies : List Action → List (Option Error)
  | [] => []
  | Action.reply e :: l => e :: replies l
  | _ :: l => replies l

/-- Number of fetches launched. -/
def launches (l : List Action) : Nat := l.count Action.launch

/-- Number of times `updates` was closed. -/
def closes (l : List Action) : Nat := l.count Action.closeUpdates


/-- The bookkeeping the loop keeps between `pending`, `seen` and what it has sent: the
items appended so far are those sent followed by those pending, their GUIDs are pairwise
different, and each of them is in `seen`. -/
def Config.Coherent (c : Config) : Prop :=
  appended c.log = sent c.log ++ c.vars.pending ∧
  ((appended c.log).map Item.GUID).Nodup ∧
  ∀ x ∈ appended c.log, x.GUID ∈ c.vars.seen

/-- The items of all fetch results the loop has received, batch after batch. -/
def batches (l : List Action) : List Item :=
  ((received l).map fetchResult.fetched).flatten

/-- An item with the given GUID, for the worked schedules. -/
def item (guid : String) : Item := { Title := "title", Channel := "channel", GUID := guid }

/-- A worked schedule: a batch repeating a GUID within itself, a delivery, a failed fetch,
a batch repeating GUIDs of the first, deliveries. -/
def schedule1 : List Event :=
  [Event.startFetch 0 0,
   Event.fetchDone { fetched := [item "a", item "b", item "a"], next := 5, err := none } 1,
   Event.send,
   Event.startFetch 6 6,
   Event.fetchDone { fetched := [item "z"], next := 0, err := some "timeout" } 7,
   Event.startFetch 8 10000000007,
   Event.fetchDone { fetched := [item "b", item "c"], next := 10000000009, err := none } 10000000008,
   Event.send,
   Event.send]

/-- Size of the largest batch among the fetch results received (0 when there is none). -/
def maxBatch (l : List Action) : Nat :=
  ((received l).map (fun r => r.fetched.length)).foldr max 0

/-- Eleven items with pairwise different GUIDs. -/
def elevenItems : List Item :=
  [item "g0", item "g1", item "g2", item "g3", item "g4", item "g5", item "g6", item "g7",
   item "g8", item "g9", item "g10"]

/-- A first fetch that succeeds with a batch of eleven new items. -/
def schedule3 : List Event :=
  [Event.startFetch 0 0,
   Event.fetchDone { fetched := elevenItems, next := 5, err := none } 1]

/-- The error of the most recent of a sequence of fetch results, `nil` when there is none
or when the most recent one succeeded. -/
def lastErr (rs : List fetchResult) : Option Error :=
  match rs.getLast? with
  | none => none
  | some r => r.err

/-- The error of the last failed fetch of a sequence of fetch results, `nil` when none
failed. -/
def lastFailure (rs : List fetchResult) : Option Error :=
  lastErr (rs.filter (fun r => r.err.isSome))

/-- Whether an event is the receipt of a fetch result. -/
def Event.isFetchDone : Event → Bool
  | Event.fetchDone _ _ => true
  | _ => false

/-- What `time.After(fetchDelay)` promises about the iteration that read `now` and took
the fetch case at `fired`: the timer channel yields no value before `fetchDelay` has
elapsed since it was armed, and it was armed no earlier than `now`. -/
def timerFired (v : LoopVars) (now fired : Time) : Prop :=
  now + fetchDelay v.next now ≤ fired

instance (v : LoopVars) (now fired : Time) : Decidable (timerFired v now fired) :=
  inferInstanceAs (Decidable (now + fetchDelay v.next now ≤ fired))

/-- A loop with one item pending and a fetch in flight. -/
def inFlight : Config :=
  { vars := { fetchDone := some { cap := 1 }, pending := [item "b"], next := 5, err := none,
              seen := ["b", "a"], returned := false },
    log := [] }

/-- Whether `updates` was already closed at every answer to a closer: each `reply` of the
log has a `closeUpdates` before it. -/
def closedBeforeAck (l : List Action) : Prop :=
  ∀ pre e post, l = pre ++ Action.reply e :: post → Action.closeUpdates ∈ pre

/-- Method `sub.Close`: `errc := make(chan error); s.closing <- errc; return <-errc`.
The send on the unbuffered `s.closing` completes when the loop takes its `closing` case,
and the value returned is the one the loop then sends on `errc`. The result is the error
returned with the configuration the loop is left in, or `none` when the call never
returns. -/
def sub.Close (c : Config) : Option (Option Error × Config) :=
  match sub.loopStep c.vars Event.closing with
  | none => none
  | some r =>
    match replies r.2 with
    | [] => none
    | e :: _ => some (e, { vars := r.1, log := c.log ++ r.2 })

/-- Two settings of the loop variables that differ at most in `next` and `err`. -/
def LoopVars.sameItems (v w : LoopVars) : Prop :=
  v.fetchDone = w.fetchDone ∧ v.pending = w.pending ∧ v.seen = w.seen ∧
    v.returned = w.returned

/-- A loop with ten items pending and no fetch in flight. -/
def tenPending : Config :=
  { vars := { fetchDone := none, pending := elevenItems.take 10, next := 5, err := none,
              seen := (elevenItems.take 10).map Item.GUID, returned := false },
    log := [] }

/-- The words of the specification for what a successful batch adds to `pending`: the
items of the batch, in order, whose GUID is not in `seen` and does not occur earlier in
the batch (`before` holds the items of the batch already passed). -/
def firstUnseen (seen : List String) : List Item → List Item → List Item
  | _, [] => []
  | before, x :: rest =>
    if x.GUID ∈ seen ∨ x.GUID ∈ before.map Item.GUID then firstUnseen seen (before ++ [x]) rest
    else x :: firstUnseen seen (before ++ [x]) rest

/-- A loop that has seen `a` and `b`, holds `b` pending and has a fetch in flight. -/
def inFlight12 : LoopVars :=
  { fetchDone := some { cap := 1 }, pending := [item "b"], next := 5, err := some "timeout",
    seen := ["b", "a"], returned := false }

/-- The items of the successful fetch results received, batch after batch. -/
def okBatches (l : List Action) : List Item :=
  (((received l).filter (fun r => r.err.isNone)).map fetchResult.fetched).flatten

/-- The scenario of the specification: a fetch returns `a, b` with `next` one second
later, the next fetch returns `b, c`; three deliveries follow. -/
def schedule13 : List Event :=
  [Event.startFetch 0 0,
   Event.fetchDone { fetched := [item "a", item "b"], next := 1000000001, err := none } 1,
   Event.startFetch 2 1000000001,
   Event.fetchDone { fetched := [item "b", item "c"], next := 2000000002, err := none }
     1000000002,
   Event.send,
   Event.send,
   Event.send]

/-- The run-time panics of indexing and slicing. -/
inductive Panic where
  | indexOutOfRange
  | sliceBoundsOutOfRange
deriving DecidableEq, Repr

/-- Expression `pending[0]`, which panics on an empty slice. -/
def index0 : List Item → Except Panic Item
  | [] => Except.error Panic.indexOutOfRange
  | x :: _ => Except.ok x

/-- Expression `pending[1:]`, which panics on an empty slice. -/
def sliceFrom1 : List Item → Except Panic (List Item)
  | [] => Except.error Panic.sliceBoundsOutOfRange
  | _ :: rest => Except.ok rest

/-- The zero value of `Item`. -/
def Item.zero : Item := { Title := "", Channel := "", GUID := "" }

/-- The send case as the source writes it, with the accesses to `pending` free to panic:
`var first Item; var updates chan Item; if len(pending) > 0 { first = pending[0]; updates =
s.updates }`, then `case updates <- first: pending = pending[1:]`. A nil `updates` blocks
the case (`none`). -/
def sendCase (v : LoopVars) : Option (Except Panic (LoopVars × List Action)) :=
  if v.returned then none
  else
    let armed : Except Panic (Item × Bool) :=
      if 0 < v.pending.length then
        match index0 v.pending with
        | Except.error p => Except.error p
        | Except.ok x => Except.ok (x, true)
      else Except.ok (Item.zero, false)
    match armed with
    | Except.error p => some (Except.error p)
    | Except.ok (first, updates) =>
      if updates then
        match sliceFrom1 v.pending with
        | Except.error p => some (Except.error p)
        | Except.ok rest => some (Except.ok ({ v with pending := rest }, [Action.send first]))
      else none

/-- The loop together with the goroutines it launched and the channel `fetchDone` holds.
* `buffer`: the values buffered in the channel the variable `fetchDone` holds;
* `fetching`: the number of goroutines `go func() { ...Fetch(); fetchDone <- ... }()` that
  have not performed their send yet;
* `sends`: the number of sends performed on the channel `fetchDone` holds, since it was
  made. -/
structure System where
  loop : Config
  buffer : List fetchResult
  fetching : Nat
  sends : Nat
deriving DecidableEq, Repr

/-- What happens in the system: the loop runs an iteration, or `Fetch` returns `result`
in a goroutine, which then executes `fetchDone <- result`. -/
inductive SysEvent where
  | loop (e : Event)
  | fetchReturns (result : fetchResult)
deriving DecidableEq, Repr

/-- A send `fetchDone <- r` with nobody receiving: it completes when the channel has room
in its buffer, and blocks (`none`) when the buffer is full or the channel is nil. -/
def trySend (fetchDone : Option Chan) (buffer : List fetchResult) (r : fetchResult) :
    Option (List fetchResult) :=
  match fetchDone with
  | none => none
  | some ch => if buffer.length < ch.cap then some (buffer ++ [r]) else none

/-- One step of the system. The fetch case makes a new channel and launches a goroutine;
the loop receives the value at the head of the buffer; a goroutine whose `Fetch` returned
sends on the channel the variable `fetchDone` holds at that moment. -/
def System.step (s : System) : SysEvent → Option System
  | SysEvent.loop (Event.startFetch now fired) =>
    match s.loop.step (Event.startFetch now fired) with
    | none => none
    | some c => some { loop := c, buffer := [], fetching := s.fetching + 1, sends := 0 }
  | SysEvent.loop (Event.fetchDone r now) =>
    match s.buffer with
    | [] => none
    | x :: rest =>
      if x = r then
        match s.loop.step (Event.fetchDone r now) with
        | none => none
        | some c => some { s with loop := c, buffer := rest }
      else none
  | SysEvent.loop Event.closing =>
    match s.loop.step Event.closing with
    | none => none
    | some c => some { s with loop := c }
  | SysEvent.loop Event.send =>
    match s.loop.step Event.send with
    | none => none
    | some c => some { s with loop := c }
  | SysEvent.fetchReturns r =>
    if s.fetching = 0 then none
    else
      match trySend s.loop.vars.fetchDone s.buffer r with
      | none => none
      | some b => some { s with buffer := b, fetching := s.fetching - 1, sends := s.sends + 1 }

/-- The system as `Subscribe` leaves it. -/
def System.init : System := { loop := Subscribe, buffer := [], fetching := 0, sends := 0 }

/-- The system along a schedule. -/
def System.run (s : System) : List SysEvent → Option System
  | [] => some s
  | e :: es =>
    match s.step e with
    | none => none
    | some s' => System.run s' es

/-- The iterations of the loop in a schedule of the system. -/
def loopEvents : List SysEvent → List Event
  | [] => []
  | SysEvent.loop e :: es => e :: loopEvents es
  | SysEvent.fetchReturns _ :: es => loopEvents es

/-- What holds between `fetchDone`, its buffer and the goroutines: with `fetchDone` nil no
goroutine is on its way and nothing is buffered; otherwise the channel has capacity 1 and
either one goroutine is on its way and nothing was sent, or none is and its one send is
in the buffer. -/
def System.Handoff (s : System) : Prop :=
  match s.loop.vars.fetchDone with
  | none => s.fetching = 0 ∧ s.buffer = []
  | some ch => ch.cap = 1 ∧
    ((s.fetching = 1 ∧ s.sends = 0 ∧ s.buffer = []) ∨
      (s.fetching = 0 ∧ s.sends = 1 ∧ s.buffer.length = 1))

/-- A fetch is started and the subscription is closed while it is in flight. -/
def schedule17 : List SysEvent :=
  [SysEvent.loop (Event.startFetch 0 0), SysEvent.loop Event.closing]

/-! ## Projections of the log -/

theorem sent_append (a b : List Action) : sent (a ++ b) = sent a ++ sent b := by
  induction a with
  | nil => rfl
  | cons x a ih => cases x <;> simp [sent, ih]

theorem appended_append (a b : List Action) : appended (a ++ b) = appended a ++ appended b := by
  induction a with
  | nil => rfl
  | cons x a ih => cases x <;> simp [appended, ih]

theorem received_append (a b : List Action) : received (a ++ b) = received a ++ received b := by
  induction a with
  | nil => rfl
  | cons x a ih => cases x <;> simp [received, ih]

theorem replies_append (a b : List Action) : replies (a ++ b) = replies a ++ replies b := by
  induction a with
  | nil => rfl
  | cons x a ih => cases x <;> simp [replies, ih]

theorem launches_append (a b : List Action) : launches (a ++ b) = launches a + launches b := by
  simp [launches]

theorem closes_append (a b : List Action) : closes (a ++ b) = closes a + closes b := by
  simp [closes]

/-! ## The range loop over a fetched batch -/

/-- The range loop only appends: its actions are `append`s. -/
theorem rangeFetched_actions (f : List Item) (v : LoopVars) :
    (rangeFetched f v).2 = (appended (rangeFetched f v).2).map Action.append := by
  induction f generalizing v with
  | nil => rfl
  | cons item rest ih =>
    unfold rangeFetched
    split
    · exact ih v
    · simp only [appended, List.map_cons]
      congr 1
      exact ih _

theorem rangeFetched_frame (f : List Item) (v : LoopVars) :
    (rangeFetched f v).1.fetchDone = v.fetchDone ∧ (rangeFetched f v).1.next = v.next ∧
    (rangeFetched f v).1.err = v.err ∧ (rangeFetched f v).1.returned = v.returned := by
  induction f generalizing v with
  | nil => simp [rangeFetched]
  | cons item rest ih =>
    unfold rangeFetched
    split
    · exact ih v
    · exact ih _

theorem rangeFetched_pending (f : List Item) (v : LoopVars) :
    (rangeFetched f v).1.pending = v.pending ++ appended (rangeFetched f v).2 := by
  induction f generalizing v with
  | nil => simp [rangeFetched, appended]
  | cons item rest ih =>
    unfold rangeFetched
    split
    · exact ih v
    · simp only [appended]
      rw [ih]
      simp

theorem rangeFetched_sublist (f : List Item) (v : LoopVars) :
    (appended (rangeFetched f v).2).Sublist f := by
  induction f generalizing v with
  | nil => simp [rangeFetched, appended]
  | cons item rest ih =>
    unfold rangeFetched
    split
    · exact (ih v).cons _
    · simp only [appended]
      exact (ih _).cons₂ _

theorem rangeFetched_seen_mono (f : List Item) (v : LoopVars) (g : String) (h : g ∈ v.seen) :
    g ∈ (rangeFetched f v).1.seen := by
  induction f generalizing v with
  | nil => simpa [rangeFetched] using h
  | cons item rest ih =>
    unfold rangeFetched
    split
    · exact ih v h
    · exact ih _ (List.mem_cons_of_mem _ h)

/-- The range loop keeps a duplicate-free history duplicate-free and inside `seen`. -/
theorem rangeFetched_nodup (f : List Item) (v : LoopVars) (A : List Item)
    (hnd : (A.map Item.GUID).Nodup) (hseen : ∀ x ∈ A, x.GUID ∈ v.seen) :
    ((A ++ appended (rangeFetched f v).2).map Item.GUID).Nodup ∧
    ∀ x ∈ A ++ appended (rangeFetched f v).2, x.GUID ∈ (rangeFetched f v).1.seen := by
  induction f generalizing v A with
  | nil => simpa [rangeFetched, appended] using ⟨hnd, hseen⟩
  | cons item rest ih =>
    unfold rangeFetched
    split
    · exact ih v A hnd hseen
    · rename_i hnot
      simp only [appended]
      have key := ih { v with pending := v.pending ++ [item], seen := item.GUID :: v.seen }
        (A ++ [item])
        (by
          rw [List.map_append, List.nodup_append]
          refine ⟨hnd, by simp, ?_⟩
          intro g hg hg'
          simp at hg'
          subst hg'
          obtain ⟨x, hx, hxg⟩ := List.mem_map.mp hg
          exact hnot (hxg ▸ hseen x hx))
        (by
          intro x hx
          rcases List.mem_append.mp hx with hx | hx
          · exact List.mem_cons_of_mem _ (hseen x hx)
          · simp at hx
            subst hx
            exact List.mem_cons_self _ _)
      simpa using key

/-! ## One iteration, case by case -/

theorem onFetchDone_failed (v : LoopVars) (r : fetchResult) (now : Time) (h : r.err.isSome = true) :
    onFetchDone v r now =
      ({ v with fetchDone := none, next := Time.Add now (10 * Second), err := r.err },
        [Action.recv r]) := by
  simp [onFetchDone, h]

theorem onFetchDone_ok (v : LoopVars) (r : fetchResult) (now : Time) (h : r.err = none) :
    onFetchDone v r now =
      ((rangeFetched r.fetched { v with fetchDone := none, next := r.next, err := none }).1,
        Action.recv r ::
          (rangeFetched r.fetched { v with fetchDone := none, next := r.next, err := none }).2) := by
  simp [onFetchDone, h]

/-- What a fired case did, read back from the step. -/
theorem Config.step_cases {c c' : Config} {e : Event} (h : c.step e = some c') :
    c.vars.returned = false ∧
    ((∃ now fired, e = Event.startFetch now fired ∧ c.vars.fetchDone = none ∧
        c.vars.pending.length < maxPending ∧
        c' = { vars := { c.vars with fetchDone := some { cap := 1 } },
               log := c.log ++ [Action.launch] }) ∨
     (∃ r now ch, e = Event.fetchDone r now ∧ c.vars.fetchDone = some ch ∧
        c' = { vars := (onFetchDone c.vars r now).1,
               log := c.log ++ (onFetchDone c.vars r now).2 }) ∨
     (e = Event.closing ∧
        c' = { vars := { c.vars with returned := true },
               log := c.log ++ [Action.reply c.vars.err, Action.closeUpdates] }) ∨
     (∃ first rest, e = Event.send ∧ c.vars.pending = first :: rest ∧
        c' = { vars := { c.vars with pending := rest },
               log := c.log ++ [Action.send first] })) := by
  unfold Config.step at h
  cases e with
  | startFetch now fired =>
    simp only [sub.loopStep] at h
    by_cases hr : c.vars.returned = true
    · simp [hr] at h
    · by_cases hen : startFetchEnabled c.vars = true
      · simp [hr, hen] at h
        simp [startFetchEnabled] at hen
        have hr' : c.vars.returned = false := by simpa using hr
        refine ⟨hr', Or.inl ⟨now, fired, rfl, hen.1, hen.2, ?_⟩⟩
        subst h
        simp [hr']
      · simp [hr, hen] at h
  | fetchDone r now =>
    simp only [sub.loopStep] at h
    by_cases hr : c.vars.returned = true
    · simp [hr] at h
    · cases hf : c.vars.fetchDone with
      | none => simp [hr, hf] at h
      | some ch =>
        simp [hr, hf] at h
        exact ⟨by simpa using hr, Or.inr (Or.inl ⟨r, now, ch, rfl, rfl, h.symm⟩)⟩
  | closing =>
    simp only [sub.loopStep] at h
    by_cases hr : c.vars.returned = true
    · simp [hr] at h
    · simp [hr] at h
      exact ⟨by simpa using hr, Or.inr (Or.inr (Or.inl ⟨rfl, h.symm⟩))⟩
  | send =>
    simp only [sub.loopStep] at h
    by_cases hr : c.vars.returned = true
    · simp [hr] at h
    · cases hp : c.vars.pending with
      | nil => simp [hr, hp] at h
      | cons first rest =>
        simp [hr, hp] at h
        have hr' : c.vars.returned = false := by simpa using hr
        refine ⟨hr', Or.inr (Or.inr (Or.inr ⟨first, rest, rfl, rfl, ?_⟩))⟩
        subst h
        simp [hr']

/-- Induction along a schedule: what holds at the start and is kept by every iteration
holds wherever the loop gets. -/
theorem sub.loop_induction (P : Config → Prop)
    (hstep : ∀ c e c', P c → c.step e = some c' → P c') :
    ∀ (es : List Event) (c c' : Config), P c → sub.loop c es = some c' → P c' := by
  intro es
  induction es with
  | nil =>
    intro c c' hc h
    simp [sub.loop] at h
    exact h ▸ hc
  | cons e es ih =>
    intro c c' hc h
    simp only [sub.loop] at h
    cases hs : c.step e with
    | none => simp [hs] at h
    | some c1 =>
      simp [hs] at h
      exact ih c1 c' (hstep c e c1 hc hs) h

theorem sub.loop_append (c : Config) (es fs : List Event) :
    sub.loop c (es ++ fs) = (sub.loop c es).bind (fun c' => sub.loop c' fs) := by
  induction es generalizing c with
  | nil => simp [sub.loop]
  | cons e es ih =>
    simp only [List.cons_append, sub.loop]
    cases c.step e with
    | none => simp
    | some c1 => simpa using ih c1
/-! ## Deduplication and order -/

theorem Config.Coherent_Subscribe : Subscribe.Coherent := by
  simp [Config.Coherent, Subscribe, LoopVars.init, appended, sent]

theorem Config.Coherent_step (c : Config) (e : Event) (c' : Config)
    (hc : c.Coherent) (h : c.step e = some c') : c'.Coherent := by
  obtain ⟨hA, hnd, hseen⟩ := hc
  obtain ⟨_, hcase⟩ := Config.step_cases h
  rcases hcase with ⟨now, fired, _, _, _, rfl⟩ | ⟨r, now, ch, _, _, rfl⟩ | ⟨_, rfl⟩ |
    ⟨first, rest, _, hp, rfl⟩
  · refine ⟨?_, ?_, ?_⟩
    · simpa [appended_append, sent_append, appended, sent] using hA
    · simpa [appended_append, appended] using hnd
    · simpa [appended_append, appended] using hseen
  · cases herr : r.err with
    | some err =>
      rw [onFetchDone_failed _ _ _ (by simp [herr])]
      refine ⟨?_, ?_, ?_⟩
      · simpa [appended_append, sent_append, appended, sent] using hA
      · simpa [appended_append, appended] using hnd
      · simpa [appended_append, appended] using hseen
    | none =>
      rw [onFetchDone_ok _ _ _ herr]
      have hk := rangeFetched_nodup r.fetched
        { c.vars with fetchDone := none, next := r.next, err := none } (appended c.log) hnd hseen
      have hp := rangeFetched_pending r.fetched
        { c.vars with fetchDone := none, next := r.next, err := none }
      have ha := rangeFetched_actions r.fetched
        { c.vars with fetchDone := none, next := r.next, err := none }
      have hs : sent (rangeFetched r.fetched
          { c.vars with fetchDone := none, next := r.next, err := none }).2 = [] := by
        rw [ha]
        generalize appended _ = l
        induction l with
        | nil => rfl
        | cons x l ih => simpa [sent] using ih
      refine ⟨?_, ?_, ?_⟩
      · simp only [appended_append, sent_append, appended, sent, hs, hp, hA]
        simp
      · simpa [appended_append, appended] using hk.1
      · simpa [appended_append, appended] using hk.2
  · refine ⟨?_, ?_, ?_⟩
    · simpa [appended_append, sent_append, appended, sent] using hA
    · simpa [appended_append, appended] using hnd
    · simpa [appended_append, appended] using hseen
  · refine ⟨?_, ?_, ?_⟩
    · simp [appended_append, sent_append, appended, sent, hA, hp]
    · simpa [appended_append, appended] using hnd
    · simpa [appended_append, appended] using hseen

theorem Config.Coherent_loop (es : List Event) (c : Config)
    (h : sub.loop Subscribe es = some c) : c.Coherent :=
  sub.loop_induction Config.Coherent Config.Coherent_step es Subscribe c
    Config.Coherent_Subscribe h
theorem sent_map_append (l : List Item) : sent (l.map Action.append) = [] := by
  induction l with
  | nil => rfl
  | cons x l ih => simpa [sent] using ih

theorem received_map_append (l : List Item) : received (l.map Action.append) = [] := by
  induction l with
  | nil => rfl
  | cons x l ih => simpa [received] using ih

theorem replies_map_append (l : List Item) : replies (l.map Action.append) = [] := by
  induction l with
  | nil => rfl
  | cons x l ih => simpa [replies] using ih

theorem launches_map_append (l : List Item) : launches (l.map Action.append) = 0 := by
  induction l with
  | nil => rfl
  | cons x l ih => simpa [launches] using ih

theorem closes_map_append (l : List Item) : closes (l.map Action.append) = 0 := by
  induction l with
  | nil => rfl
  | cons x l ih => simpa [closes] using ih

theorem batches_append (a b : List Action) : batches (a ++ b) = batches a ++ batches b := by
  simp [batches, received_append]

/-- The appends follow the batches: what was appended is picked, in order, from what
was received. -/
theorem appended_sublist_batches (es : List Event) (c : Config)
    (h : sub.loop Subscribe es = some c) : (appended c.log).Sublist (batches c.log) := by
  refine sub.loop_induction (fun c => (appended c.log).Sublist (batches c.log)) ?_ es
    Subscribe c (by simp [Subscribe, appended, batches, received]) h
  intro c e c' hc hs
  obtain ⟨_, hcase⟩ := Config.step_cases hs
  rcases hcase with ⟨now, fired, _, _, _, rfl⟩ | ⟨r, now, ch, _, _, rfl⟩ | ⟨_, rfl⟩ |
    ⟨first, rest, _, hp, rfl⟩
  · simpa [appended_append, received_append, appended, batches, received] using hc
  · cases herr : r.err with
    | some err =>
      rw [onFetchDone_failed _ _ _ (by simp [herr])]
      simp only [appended_append, batches_append, appended, List.append_nil]
      exact hc.trans (List.sublist_append_left _ _)
    | none =>
      rw [onFetchDone_ok _ _ _ herr]
      have hsub := rangeFetched_sublist r.fetched
        { c.vars with fetchDone := none, next := r.next, err := none }
      have ha := rangeFetched_actions r.fetched
        { c.vars with fetchDone := none, next := r.next, err := none }
      simp only [appended_append, batches_append, appended]
      refine hc.append ?_
      have : batches (Action.recv r :: (rangeFetched r.fetched
          { c.vars with fetchDone := none, next := r.next, err := none }).2) = r.fetched := by
        rw [ha]
        simp [batches, received, received_map_append]
      rw [this]
      exact hsub
  · simpa [appended_append, received_append, appended, batches, received] using hc
  · simpa [appended_append, received_append, appended, batches, received] using hc

/-! ## Claims -/

/-- C1: whatever the schedule of the loop (fetch starts, fetch results with arbitrary
batches, deliveries, close), no two items sent on `updates` have the same GUID. -/
theorem C1_no_guid_sent_twice (es : List Event) (c : Config)
    (h : sub.loop Subscribe es = some c) : ((sent c.log).map Item.GUID).Nodup := by
  obtain ⟨hA, hnd, _⟩ := Config.Coherent_loop es c h
  rw [hA, List.map_append] at hnd
  exact (List.nodup_append.mp hnd).1

/-- C1 on the worked schedule: `a`, `b`, `c` are sent, each once, although `a` and `b`
were fetched twice. -/
theorem C1_no_guid_sent_twice_witness :
    ∃ c, sub.loop Subscribe schedule1 = some c ∧
      sent c.log = [item "a", item "b", item "c"] ∧ ((sent c.log).map Item.GUID).Nodup :=
  ⟨_, rfl, rfl, C1_no_guid_sent_twice schedule1 _ rfl⟩

/-- C2: items are sent in the order they were appended to `pending`: the sequence sent is
always an initial segment of the sequence appended (so an item appended later is never
sent before one appended earlier), and the sequence appended is picked, in order, from
the batches received, batch after batch. -/
theorem C2_sent_in_append_order (es : List Event) (c : Config)
    (h : sub.loop Subscribe es = some c) :
    sent c.log <+: appended c.log ∧ (appended c.log).Sublist (batches c.log) := by
  obtain ⟨hA, _, _⟩ := Config.Coherent_loop es c h
  exact ⟨hA ▸ List.prefix_append _ _, appended_sublist_batches es c h⟩

/-- C2 on a schedule that stops with one item still pending. -/
theorem C2_sent_in_append_order_witness :
    ∃ c, sub.loop Subscribe (schedule1.take 8) = some c ∧
      sent c.log = [item "a", item "b"] ∧
      appended c.log = [item "a", item "b", item "c"] ∧
      (sent c.log <+: appended c.log ∧ (appended c.log).Sublist (batches c.log)) :=
  ⟨_, rfl, rfl, rfl, C2_sent_in_append_order (schedule1.take 8) _ rfl⟩
/-! ## The size of `pending` -/

theorem maxBatch_append (a b : List Action) :
    maxBatch (a ++ b) = max (maxBatch a) (maxBatch b) := by
  simp only [maxBatch, received_append, List.map_append, List.foldr_append]
  generalize List.foldr max 0 (List.map (fun r => r.fetched.length) (received b)) = m
  induction List.map (fun r => r.fetched.length) (received a) with
  | nil => simp
  | cons x l ih => simp [ih, max_assoc]

theorem maxBatch_recv (r : fetchResult) (l : List Item) :
    maxBatch (Action.recv r :: l.map Action.append) = r.fetched.length := by
  simp [maxBatch, received, received_map_append]

/-- While a fetch is in flight `pending` is below `maxPending`; at any time it exceeds
`maxPending - 1` by no more than the size of the largest batch received. -/
theorem pending_bound (es : List Event) (c : Config) (h : sub.loop Subscribe es = some c) :
    (c.vars.fetchDone.isSome = true → c.vars.pending.length < maxPending) ∧
    c.vars.pending.length ≤ maxPending - 1 + maxBatch c.log := by
  refine sub.loop_induction
    (fun c => (c.vars.fetchDone.isSome = true → c.vars.pending.length < maxPending) ∧
      c.vars.pending.length ≤ maxPending - 1 + maxBatch c.log) ?_ es
    Subscribe c (by simp [Subscribe, LoopVars.init, maxPending]) h
  intro c e c' hc hs
  obtain ⟨hfl, hb⟩ := hc
  obtain ⟨_, hcase⟩ := Config.step_cases hs
  rcases hcase with ⟨now, fired, _, _, hlen, rfl⟩ | ⟨r, now, ch, _, hch, rfl⟩ | ⟨_, rfl⟩ |
    ⟨first, rest, _, hp, rfl⟩
  · refine ⟨fun _ => hlen, ?_⟩
    simp only [maxBatch_append]
    exact hb.trans (Nat.add_le_add_left (le_max_left _ _) _)
  · have hlt : c.vars.pending.length < maxPending := hfl (by simp [hch])
    cases herr : r.err with
    | some err =>
      rw [onFetchDone_failed _ _ _ (by simp [herr])]
      refine ⟨by simp, ?_⟩
      simp only [maxBatch_append]
      exact hb.trans (Nat.add_le_add_left (le_max_left _ _) _)
    | none =>
      rw [onFetchDone_ok _ _ _ herr]
      have hsub := (rangeFetched_sublist r.fetched
        { c.vars with fetchDone := none, next := r.next, err := none }).length_le
      have hpe := rangeFetched_pending r.fetched
        { c.vars with fetchDone := none, next := r.next, err := none }
      have ha := rangeFetched_actions r.fetched
        { c.vars with fetchDone := none, next := r.next, err := none }
      have hfr := (rangeFetched_frame r.fetched
        { c.vars with fetchDone := none, next := r.next, err := none }).1
      refine ⟨by simp [hfr], ?_⟩
      have hm : maxBatch (Action.recv r :: (rangeFetched r.fetched
          { c.vars with fetchDone := none, next := r.next, err := none }).2) =
          r.fetched.length := by
        rw [ha]
        exact maxBatch_recv r _
      simp only [maxBatch_append, hm, hpe, List.length_append]
      have := le_max_right (maxBatch c.log) r.fetched.length
      dsimp only at hsub ⊢
      simp only [maxPending] at hlt ⊢
      omega
  · refine ⟨fun hh => hfl hh, ?_⟩
    simp only [maxBatch_append]
    exact hb.trans (Nat.add_le_add_left (le_max_left _ _) _)
  · rw [hp] at hfl hb
    simp only [List.length_cons] at hfl hb
    refine ⟨fun hh => ?_, ?_⟩
    · have := hfl hh
      show rest.length < maxPending
      omega
    · simp only [maxBatch_append]
      have := le_max_left (maxBatch c.log) (maxBatch [Action.send first])
      show rest.length ≤ _
      omega

/-- C3, as stated, fails: after one successful fetch of eleven new items `pending` holds
eleven items, more than `maxPending`. -/
theorem C3_pending_exceeds_maxPending :
    ∃ c, sub.loop Subscribe schedule3 = some c ∧ c.vars.pending.length = 11 ∧
      ¬ c.vars.pending.length ≤ maxPending :=
  ⟨_, rfl, rfl, by decide⟩

/-- C3, amended: in every state the loop reaches, `pending` is shorter than `maxPending`
(10) while a fetch is in flight, and at any time its length is at most 9 plus the size of
the largest batch received so far. -/
theorem C3_pending_bounded_by_batch (es : List Event) (c : Config)
    (h : sub.loop Subscribe es = some c) :
    (c.vars.fetchDone.isSome = true → c.vars.pending.length < 10) ∧
    c.vars.pending.length ≤ 9 + maxBatch c.log :=
  pending_bound es c h

/-- C3, amended, on the schedule of eleven items: the bound `9 + 11` is met. -/
theorem C3_pending_bounded_by_batch_witness :
    ∃ c, sub.loop Subscribe schedule3 = some c ∧ maxBatch c.log = 11 ∧
      ((c.vars.fetchDone.isSome = true → c.vars.pending.length < 10) ∧
        c.vars.pending.length ≤ 9 + maxBatch c.log) :=
  ⟨_, rfl, rfl, C3_pending_bounded_by_batch schedule3 _ rfl⟩
/-! ## Fetches in flight -/

theorem launches_recv (r : fetchResult) (l : List Item) :
    launches (Action.recv r :: l.map Action.append) = 0 := by
  have := launches_map_append l
  simpa [launches] using this

theorem received_recv (r : fetchResult) (l : List Item) :
    received (Action.recv r :: l.map Action.append) = [r] := by
  simp [received, received_map_append]

/-- The actions of a received fetch result: the receive, then appends only. -/
theorem onFetchDone_actions (v : LoopVars) (r : fetchResult) (now : Time) :
    ∃ l : List Item, (onFetchDone v r now).2 = Action.recv r :: l.map Action.append := by
  cases herr : r.err with
  | some err =>
    rw [onFetchDone_failed _ _ _ (by simp [herr])]
    exact ⟨[], rfl⟩
  | none =>
    rw [onFetchDone_ok _ _ _ herr]
    exact ⟨_, congrArg _ (rangeFetched_actions _ _)⟩

theorem onFetchDone_fetchDone (v : LoopVars) (r : fetchResult) (now : Time) :
    (onFetchDone v r now).1.fetchDone = none := by
  cases herr : r.err with
  | some err => rw [onFetchDone_failed _ _ _ (by simp [herr])]
  | none =>
    rw [onFetchDone_ok _ _ _ herr]
    exact (rangeFetched_frame _ _).1

/-- Launches and receipts stay in step with `fetchDone`: there is one launch more than
receipts when `fetchDone` is non-nil and as many otherwise. -/
theorem launches_eq (es : List Event) (c : Config) (h : sub.loop Subscribe es = some c) :
    launches c.log = (received c.log).length + (if c.vars.fetchDone.isSome then 1 else 0) := by
  refine sub.loop_induction
    (fun c => launches c.log =
      (received c.log).length + (if c.vars.fetchDone.isSome then 1 else 0)) ?_ es
    Subscribe c (by simp [Subscribe, LoopVars.init, launches, received]) h
  intro c e c' hc hs
  obtain ⟨_, hcase⟩ := Config.step_cases hs
  rcases hcase with ⟨now, fired, _, hnil, _, rfl⟩ | ⟨r, now, ch, _, hch, rfl⟩ | ⟨_, rfl⟩ |
    ⟨first, rest, _, hp, rfl⟩
  · simp only [launches_append, received_append, hnil] at hc ⊢
    simp [launches, received] at hc ⊢
    omega
  · obtain ⟨l, hl⟩ := onFetchDone_actions c.vars r now
    simp only [launches_append, received_append, hl, launches_recv, received_recv,
      onFetchDone_fetchDone, hch] at hc ⊢
    simp at hc ⊢
    omega
  · simpa [launches_append, received_append, launches, received] using hc
  · simpa [launches_append, received_append, launches, received] using hc

/-- C4: in every state the loop reaches at most one fetch is outstanding: the number of
fetches launched exceeds the number of fetch results received by 0 or 1, by 1 exactly when
`fetchDone` is non-nil, and an iteration launches a fetch only from a state whose
`fetchDone` is nil. -/
theorem C4_at_most_one_fetch_in_flight (es : List Event) (c : Config)
    (h : sub.loop Subscribe es = some c) :
    (launches c.log = (received c.log).length ∨
      launches c.log = (received c.log).length + 1) ∧
    (launches c.log = (received c.log).length + 1 ↔ c.vars.fetchDone ≠ none) ∧
    ∀ e c', c.step e = some c' → launches c.log < launches c'.log →
      c.vars.fetchDone = none := by
  have hinv := launches_eq es c h
  refine ⟨?_, ?_, ?_⟩
  · cases hf : c.vars.fetchDone <;> simp [hf] at hinv <;> omega
  · cases hf : c.vars.fetchDone <;> simp [hf] at hinv ⊢ <;> omega
  · intro e c' hs hlt
    obtain ⟨_, hcase⟩ := Config.step_cases hs
    rcases hcase with ⟨now, fired, _, hnil, _, rfl⟩ | ⟨r, now, ch, _, hch, rfl⟩ | ⟨_, rfl⟩ |
      ⟨first, rest, _, hp, rfl⟩
    · exact hnil
    · obtain ⟨l, hl⟩ := onFetchDone_actions c.vars r now
      simp [launches_append, hl, launches_recv] at hlt
    · simp [launches_append, launches] at hlt
    · simp [launches_append, launches] at hlt

/-- C4 on the worked schedule cut while the third fetch is in flight: three launches, two
results received. -/
theorem C4_at_most_one_fetch_in_flight_witness :
    ∃ c, sub.loop Subscribe (schedule1.take 6) = some c ∧
      launches c.log = 3 ∧ (received c.log).length = 2 ∧
      ((launches c.log = (received c.log).length ∨
          launches c.log = (received c.log).length + 1) ∧
        (launches c.log = (received c.log).length + 1 ↔ c.vars.fetchDone ≠ none) ∧
        ∀ e c', c.step e = some c' → launches c.log < launches c'.log →
          c.vars.fetchDone = none) :=
  ⟨_, rfl, rfl, rfl, C4_at_most_one_fetch_in_flight (schedule1.take 6) _ rfl⟩
/-! ## Closing -/

theorem lastErr_concat (rs : List fetchResult) (r : fetchResult) :
    lastErr (rs ++ [r]) = r.err := by
  simp [lastErr]

theorem lastFailure_concat_failed (rs : List fetchResult) (r : fetchResult)
    (h : r.err.isSome = true) : lastFailure (rs ++ [r]) = r.err := by
  simp [lastFailure, List.filter_append, h, lastErr]

theorem lastFailure_of_all_ok (rs : List fetchResult) (h : ∀ r ∈ rs, r.err = none) :
    lastFailure rs = none := by
  have : rs.filter (fun r => r.err.isSome) = [] := by
    rw [List.filter_eq_nil_iff]
    intro r hr
    simp [h r hr]
  simp [lastFailure, this, lastErr]

theorem lastErr_of_all_ok (rs : List fetchResult) (h : ∀ r ∈ rs, r.err = none) :
    lastErr rs = none := by
  unfold lastErr
  cases hl : rs.getLast? with
  | none => rfl
  | some r => exact h r (List.mem_of_getLast?_eq_some hl)

theorem onFetchDone_err (v : LoopVars) (r : fetchResult) (now : Time) :
    (onFetchDone v r now).1.err = r.err := by
  cases herr : r.err with
  | some err => rw [onFetchDone_failed _ _ _ (by simp [herr])]; simp [herr]
  | none =>
    rw [onFetchDone_ok _ _ _ herr]
    exact (rangeFetched_frame _ _).2.2.1

/-- The variable `err` is the error of the most recent fetch result received. -/
theorem err_eq_lastErr (es : List Event) (c : Config) (h : sub.loop Subscribe es = some c) :
    c.vars.err = lastErr (received c.log) := by
  refine sub.loop_induction (fun c => c.vars.err = lastErr (received c.log)) ?_ es
    Subscribe c (by simp [Subscribe, LoopVars.init, received, lastErr]) h
  intro c e c' hc hs
  obtain ⟨_, hcase⟩ := Config.step_cases hs
  rcases hcase with ⟨now, fired, _, hnil, _, rfl⟩ | ⟨r, now, ch, _, hch, rfl⟩ | ⟨_, rfl⟩ |
    ⟨first, rest, _, hp, rfl⟩
  · simpa [received_append, received] using hc
  · obtain ⟨l, hl⟩ := onFetchDone_actions c.vars r now
    simp only [received_append, hl, received_recv, lastErr_concat, onFetchDone_err]
  · simpa [received_append, received] using hc
  · simpa [received_append, received] using hc

/-- Until the loop returns it has answered no closer and has not closed `updates`; once it
has returned its log ends with the answer to the closer followed by the closing of
`updates`, and holds no other answer and no other closing. -/
theorem closed_shape (es : List Event) (c : Config) (h : sub.loop Subscribe es = some c) :
    (c.vars.returned = false ∧ replies c.log = [] ∧ closes c.log = 0) ∨
    (c.vars.returned = true ∧ ∃ pre, c.log = pre ++ [Action.reply c.vars.err, Action.closeUpdates] ∧
      replies pre = [] ∧ closes pre = 0) := by
  refine sub.loop_induction
    (fun c => (c.vars.returned = false ∧ replies c.log = [] ∧ closes c.log = 0) ∨
      (c.vars.returned = true ∧
        ∃ pre, c.log = pre ++ [Action.reply c.vars.err, Action.closeUpdates] ∧
          replies pre = [] ∧ closes pre = 0)) ?_ es
    Subscribe c (by simp [Subscribe, LoopVars.init, replies, closes]) h
  intro c e c' hc hs
  obtain ⟨hret, hcase⟩ := Config.step_cases hs
  rcases hc with ⟨_, hrep, hcl⟩ | ⟨hr, _⟩
  swap
  · rw [hret] at hr
    exact absurd hr (by simp)
  rcases hcase with ⟨now, fired, _, hnil, _, rfl⟩ | ⟨r, now, ch, _, hch, rfl⟩ | ⟨_, rfl⟩ |
    ⟨first, rest, _, hp, rfl⟩
  · left
    refine ⟨hret, ?_, ?_⟩
    · simp [replies_append, replies, hrep]
    · show closes (c.log ++ _) = 0
      rw [closes_append, hcl]
      rfl
  · left
    obtain ⟨l, hl⟩ := onFetchDone_actions c.vars r now
    have hfr : (onFetchDone c.vars r now).1.returned = false := by
      cases herr : r.err with
      | some err => rw [onFetchDone_failed _ _ _ (by simp [herr])]; exact hret
      | none =>
        rw [onFetchDone_ok _ _ _ herr]
        exact (rangeFetched_frame _ _).2.2.2.trans hret
    have h1 : replies (Action.recv r :: l.map Action.append) = [] := by
      simp [replies, replies_map_append]
    have h2 : closes (Action.recv r :: l.map Action.append) = 0 := by
      have := closes_map_append l
      simpa [closes] using this
    simp [replies_append, closes_append, hl, h1, h2, hrep, hcl, hfr]
  · right
    exact ⟨rfl, c.log, rfl, hrep, hcl⟩
  · left
    refine ⟨hret, ?_, ?_⟩
    · simp [replies_append, replies, hrep]
    · show closes (c.log ++ _) = 0
      rw [closes_append, hcl]
      rfl
theorem sub.loop_concat {c c' : Config} {es : List Event} {e : Event}
    (h : sub.loop c (es ++ [e]) = some c') :
    ∃ c1, sub.loop c es = some c1 ∧ c1.step e = some c' := by
  rw [sub.loop_append] at h
  cases h1 : sub.loop c es with
  | none => simp [h1] at h
  | some c1 =>
    simp only [h1, Option.some_bind, sub.loop] at h
    cases h2 : c1.step e with
    | none => simp [h2] at h
    | some c2 =>
      simp [h2] at h
      exact ⟨c1, rfl, h ▸ h2⟩

/-- C5: the code breaks the claim at this schedule. A fetch fails with `timeout`, the next
fetch succeeds, then the subscription is closed: the last failed fetch received before
the close has the error `timeout`, which the documentation of `Subscription` ("returns
the last fetch error if any") and the comment on `err` ("error from a failed fetch") have
`Close` return, but the loop hands the closer `nil`, because `next, err = result.next,
result.err` also runs for the successful result. -/
theorem C5_close_forgets_earlier_failure :
    ∃ c, sub.loop Subscribe (schedule1.take 7 ++ [Event.closing]) = some c ∧
      replies c.log = [none] ∧ lastFailure (received c.log) = some "timeout" :=
  ⟨_, rfl, rfl, rfl⟩

/-! ## Backoff after a failed fetch -/

/-- Only the receipt of a fetch result changes `next`. -/
theorem next_unchanged (es : List Event) (c c' : Config)
    (hes : es.all (fun e => !e.isFetchDone) = true) (h : sub.loop c es = some c') :
    c'.vars.next = c.vars.next := by
  induction es generalizing c with
  | nil =>
    simp [sub.loop] at h
    rw [h]
  | cons e es ih =>
    simp only [List.all_cons, Bool.and_eq_true] at hes
    simp only [sub.loop] at h
    cases hs : c.step e with
    | none => simp [hs] at h
    | some c1 =>
      simp only [hs] at h
      rw [ih c1 hes.2 h]
      obtain ⟨_, hcase⟩ := Config.step_cases hs
      rcases hcase with ⟨now, fired, _, _, _, rfl⟩ | ⟨r, now, ch, he, _, _⟩ | ⟨_, rfl⟩ |
        ⟨first, rest, _, _, rfl⟩
      · rfl
      · rw [he] at hes
        simp [Event.isFetchDone] at hes
      · rfl
      · rfl

/-- The arithmetic of the timer on plain integers: a delay of `next - now`, cut to the
`Duration` range, added to `now` reaches `next` when `next - now` is within the range. -/
theorem delay_reaches (next now fired : Int) (hnear : next - now ≤ 2 ^ 63 - 1)
    (h : now + (if now < next then
        (if 2 ^ 63 - 1 < next - now then 2 ^ 63 - 1
          else if next - now < -(2 ^ 63) then -(2 ^ 63) else next - now)
        else 0) ≤ fired) : next ≤ fired := by
  split_ifs at h <;> omega

/-- Ten seconds after a past instant is within the `Duration` range of the present. -/
theorem ten_seconds_near (t now : Int) (h : t ≤ now) :
    t + 10 * 1000000000 - now ≤ 2 ^ 63 - 1 := by
  omega

/-- A timer armed with `fetchDelay` at a reading `now` at most `maxDuration` before
`next` does not fire before `next`. -/
theorem next_le_of_timer (next now fired : Time) (hnear : next - now ≤ maxDuration)
    (h : now + fetchDelay next now ≤ fired) : next ≤ fired := by
  refine delay_reaches next now fired hnear ?_
  simpa [fetchDelay, Time.After, Time.Sub, maxDuration, minDuration] using h

/-- C6: with a clock that does not go back, when the loop receives a failed fetch result
and reads the time `t`, `next` becomes `t + 10 s` whatever `next` the fetcher reported,
and any fetch launched afterwards, before another fetch result is received, is launched
at `t + 10 s` or later, although `fetchDone` is nil again. -/
theorem C6_backoff_after_failure (c0 c1 c2 c3 : Config) (r : fetchResult) (t now fired : Time)
    (es : List Event) (hfail : r.err ≠ none)
    (h1 : c0.step (Event.fetchDone r t) = some c1)
    (hes : es.all (fun e => !e.isFetchDone) = true)
    (h2 : sub.loop c1 es = some c2)
    (_h3 : c2.step (Event.startFetch now fired) = some c3)
    (hclock : t ≤ now) (htimer : timerFired c2.vars now fired) :
    c1.vars.next = t + 10 * Second ∧ c1.vars.fetchDone = none ∧ t + 10 * Second ≤ fired := by
  have hn1 : c1.vars.next = t + 10 * Second ∧ c1.vars.fetchDone = none := by
    obtain ⟨_, hcase⟩ := Config.step_cases h1
    rcases hcase with ⟨_, _, he, _⟩ | ⟨r', now', ch, he, _, rfl⟩ | ⟨he, _⟩ | ⟨_, _, he, _⟩
    · cases he
    · cases he
      rw [onFetchDone_failed _ _ _ (Option.isSome_iff_ne_none.mpr hfail)]
      exact ⟨rfl, rfl⟩
    · cases he
    · cases he
  refine ⟨hn1.1, hn1.2, ?_⟩
  have hn2 : c2.vars.next = t + 10 * Second := (next_unchanged es c1 c2 hes h2).trans hn1.1
  unfold timerFired at htimer
  rw [hn2] at htimer
  refine next_le_of_timer (t + 10 * Second) now fired ?_ htimer
  exact ten_seconds_near t now hclock

/-- C6 at a failure read at 7 ns, followed by a delivery and a launch armed at 8 ns:
the launch happens at `7 ns + 10 s`. -/
theorem C6_backoff_after_failure_witness :
    ∃ c1 c2 c3,
      inFlight.step (Event.fetchDone
        { fetched := [item "z"], next := 0, err := some "timeout" } 7) = some c1 ∧
      sub.loop c1 [Event.send] = some c2 ∧
      c2.step (Event.startFetch 8 10000000007) = some c3 ∧
      timerFired c2.vars 8 10000000007 ∧
      (c1.vars.next = 7 + 10 * Second ∧ c1.vars.fetchDone = none ∧
        7 + 10 * Second ≤ 10000000007) :=
  ⟨_, _, _, rfl, rfl, rfl, by decide,
    C6_backoff_after_failure inFlight _ _ _
      { fetched := [item "z"], next := 0, err := some "timeout" } 7 8 10000000007
      [Event.send] (by decide) rfl (by decide) rfl rfl (by decide) (by decide)⟩
/-! ## Close is final -/

/-- Once the loop has returned no case fires. -/
theorem step_of_returned (c : Config) (e : Event) (h : c.vars.returned = true) :
    c.step e = none := by
  cases hs : c.step e with
  | none => rfl
  | some c' =>
    have := (Config.step_cases hs).1
    rw [h] at this
    exact absurd this (by simp)

theorem loop_of_returned (c c' : Config) (es : List Event) (h : c.vars.returned = true)
    (hl : sub.loop c es = some c') : es = [] := by
  cases es with
  | nil => rfl
  | cons e es =>
    simp [sub.loop, step_of_returned c e h] at hl

theorem onFetchDone_returned (v : LoopVars) (r : fetchResult) (now : Time) :
    (onFetchDone v r now).1.returned = v.returned := by
  cases herr : r.err with
  | some err => rw [onFetchDone_failed _ _ _ (by simp [herr])]
  | none =>
    rw [onFetchDone_ok _ _ _ herr]
    exact (rangeFetched_frame _ _).2.2.2

/-- Only a close request makes the loop return. -/
theorem not_returned_of_no_closing (es : List Event) (c c' : Config)
    (h : sub.loop c es = some c') (hc : c.vars.returned = false)
    (hnot : Event.closing ∉ es) : c'.vars.returned = false := by
  induction es generalizing c with
  | nil =>
    simp [sub.loop] at h
    exact h ▸ hc
  | cons e es ih =>
    simp only [List.mem_cons, not_or] at hnot
    simp only [sub.loop] at h
    cases hs : c.step e with
    | none => simp [hs] at h
    | some c1 =>
      simp only [hs] at h
      refine ih c1 h ?_ hnot.2
      obtain ⟨hret, hcase⟩ := Config.step_cases hs
      rcases hcase with ⟨_, _, _, _, _, rfl⟩ | ⟨r, now, _, _, _, rfl⟩ | ⟨he, _⟩ |
        ⟨_, _, _, _, rfl⟩
      · exact hret
      · exact (onFetchDone_returned _ _ _).trans hret
      · exact absurd he.symm hnot.1
      · exact hret

/-- C7: close is final and exclusive. In a schedule the loop runs through, a close request
can only be the last event and occurs once; the loop then takes no further case, `updates`
has been closed exactly once, and that closing is the last thing the loop did, so that no
item is sent and no fetch is launched after it. Without a close request `updates` is not
closed. -/
theorem C7_close_is_terminal (es : List Event) (c : Config)
    (h : sub.loop Subscribe es = some c) :
    (Event.closing ∈ es →
      (∃ es1, es = es1 ++ [Event.closing] ∧ Event.closing ∉ es1) ∧
      (∀ e, c.step e = none) ∧
      closes c.log = 1 ∧
      ∃ pre, c.log = pre ++ [Action.closeUpdates] ∧ closes pre = 0) ∧
    (Event.closing ∉ es → closes c.log = 0) := by
  constructor
  · intro hmem
    obtain ⟨es1, es2, hes, hnot⟩ := List.eq_append_cons_of_mem hmem
    subst hes
    rw [sub.loop_append] at h
    cases h1 : sub.loop Subscribe es1 with
    | none => simp [h1] at h
    | some c1 =>
      simp only [h1, Option.some_bind, sub.loop] at h
      cases hs : c1.step Event.closing with
      | none => simp [hs] at h
      | some c2 =>
        simp only [hs] at h
        obtain ⟨hret, hcase⟩ := Config.step_cases hs
        rcases hcase with ⟨_, _, he, _⟩ | ⟨_, _, _, he, _⟩ | ⟨_, rfl⟩ | ⟨_, _, he, _⟩
        · cases he
        · cases he
        · have hnil := loop_of_returned _ c es2 rfl h
          subst hnil
          simp only [sub.loop, Option.some.injEq] at h
          subst h
          have hcl : closes c1.log = 0 := by
            rcases closed_shape es1 c1 h1 with ⟨_, _, hcl⟩ | ⟨hr, _⟩
            · exact hcl
            · rw [hret] at hr
              exact absurd hr (by simp)
          refine ⟨⟨es1, rfl, hnot⟩, fun e => step_of_returned _ e rfl, ?_, ?_⟩
          · show closes (c1.log ++ _) = 1
            rw [closes_append, hcl]
            rfl
          · refine ⟨c1.log ++ [Action.reply c1.vars.err], by simp, ?_⟩
            rw [closes_append, hcl]
            rfl
        · cases he
  · intro hnot
    rcases closed_shape es c h with ⟨_, _, hcl⟩ | ⟨hr, _⟩
    · exact hcl
    · rw [not_returned_of_no_closing es Subscribe c h rfl hnot] at hr
      exact absurd hr (by simp)


/-- C7 on the worked schedule followed by a close request. -/
theorem C7_close_is_terminal_witness :
    ∃ c, sub.loop Subscribe (schedule1 ++ [Event.closing]) = some c ∧
      ((Event.closing ∈ schedule1 ++ [Event.closing] →
        (∃ es1, schedule1 ++ [Event.closing] = es1 ++ [Event.closing] ∧
          Event.closing ∉ es1) ∧
        (∀ e, c.step e = none) ∧
        closes c.log = 1 ∧
        ∃ pre, c.log = pre ++ [Action.closeUpdates] ∧ closes pre = 0) ∧
      (Event.closing ∉ schedule1 ++ [Event.closing] → closes c.log = 0)) :=
  ⟨_, rfl, C7_close_is_terminal (schedule1 ++ [Event.closing]) _ rfl⟩
/-! ## The order of the close handshake -/

/-- C8, as stated, fails: on a close request the loop first sends the error on the reply
channel and only then closes `updates`, so at the moment the closer is answered `updates`
is not closed yet. -/
theorem C8_reply_precedes_close :
    ∃ c, sub.loop Subscribe [Event.closing] = some c ∧
      c.log = [Action.reply none, Action.closeUpdates] ∧ ¬ closedBeforeAck c.log := by
  refine ⟨_, rfl, rfl, ?_⟩
  intro h
  have := h [] none [Action.closeUpdates] rfl
  simp at this

/-- C8, amended: the close branch performs exactly two actions, in this order: it sends
`err` on the reply channel, then closes `updates`. In every schedule ending in a close
request the log ends with that answer immediately followed by the closing, and `updates`
was not closed and no closer was answered before. -/
theorem C8_close_follows_reply (es : List Event) (c : Config)
    (h : sub.loop Subscribe (es ++ [Event.closing]) = some c) :
    ∃ c1, sub.loop Subscribe es = some c1 ∧
      sub.loopStep c1.vars Event.closing =
        some ({ c1.vars with returned := true },
          [Action.reply c1.vars.err, Action.closeUpdates]) ∧
      c.log = c1.log ++ [Action.reply c1.vars.err, Action.closeUpdates] ∧
      Action.closeUpdates ∉ c1.log ∧ replies c1.log = [] := by
  obtain ⟨c1, h1, hs⟩ := sub.loop_concat h
  obtain ⟨hret, hcase⟩ := Config.step_cases hs
  have hshape : replies c1.log = [] ∧ closes c1.log = 0 := by
    rcases closed_shape es c1 h1 with ⟨_, hrep, hcl⟩ | ⟨hr, _⟩
    · exact ⟨hrep, hcl⟩
    · rw [hret] at hr
      exact absurd hr (by simp)
  rcases hcase with ⟨_, _, he, _⟩ | ⟨_, _, _, he, _⟩ | ⟨_, rfl⟩ | ⟨_, _, he, _⟩
  · cases he
  · cases he
  · refine ⟨c1, h1, ?_, rfl, ?_, hshape.1⟩
    · simp [sub.loopStep, hret]
    · exact List.count_eq_zero.mp hshape.2
  · cases he

/-- C8, amended, on the worked schedule: the log ends with the answer, then the closing. -/
theorem C8_close_follows_reply_witness :
    ∃ c, sub.loop Subscribe (schedule1 ++ [Event.closing]) = some c ∧
      ∃ c1, sub.loop Subscribe schedule1 = some c1 ∧
        sub.loopStep c1.vars Event.closing =
          some ({ c1.vars with returned := true },
            [Action.reply c1.vars.err, Action.closeUpdates]) ∧
        c.log = c1.log ++ [Action.reply c1.vars.err, Action.closeUpdates] ∧
        Action.closeUpdates ∉ c1.log ∧ replies c1.log = [] :=
  ⟨_, rfl, C8_close_follows_reply schedule1 _ rfl⟩

/-! ## Closing twice -/

theorem sub.Close_eq_some {c c' : Config} {e : Option Error} (h : sub.Close c = some (e, c')) :
    c.vars.returned = false ∧ e = c.vars.err ∧
      c' = { vars := { c.vars with returned := true },
             log := c.log ++ [Action.reply c.vars.err, Action.closeUpdates] } := by
  unfold sub.Close at h
  by_cases hr : c.vars.returned = true
  · simp [sub.loopStep, hr] at h
  · have hr' : c.vars.returned = false := by simpa using hr
    simp [sub.loopStep, hr', replies] at h
    exact ⟨hr', h.1.symm, h.2.symm⟩

/-- C9, as stated, fails: on a fresh subscription the first `Close` returns (with `nil`),
and a second `Close` made afterwards never returns. -/
theorem C9_second_close_blocks :
    ∃ e c, sub.Close Subscribe = some (e, c) ∧ e = none ∧ sub.Close c = none :=
  ⟨_, _, rfl, rfl, rfl⟩

/-- C9, amended: once a call to `Close` has returned, the loop has returned and takes no
further case, and every later call to `Close` never returns: nothing receives from
`s.closing` any more. Only the first call is answered. -/
theorem C9_close_returns_once (c c' c'' : Config) (e : Option Error) (es : List Event)
    (h : sub.Close c = some (e, c')) (hes : sub.loop c' es = some c'') :
    e = c.vars.err ∧ es = [] ∧ c'' = c' ∧ sub.Close c'' = none := by
  obtain ⟨_, he, hc'⟩ := sub.Close_eq_some h
  have hr : c'.vars.returned = true := by rw [hc']
  have hnil := loop_of_returned c' c'' es hr hes
  subst hnil
  simp only [sub.loop, Option.some.injEq] at hes
  subst hes
  refine ⟨he, rfl, rfl, ?_⟩
  simp [sub.Close, sub.loopStep, hr]

/-- C9, amended, on the worked schedule: the first `Close` returns, the second does not. -/
theorem C9_close_returns_once_witness :
    ∃ c c', sub.loop Subscribe schedule1 = some c ∧ sub.Close c = some (none, c') ∧
      (none = c.vars.err ∧ ([] : List Event) = [] ∧ c' = c' ∧ sub.Close c' = none) :=
  ⟨_, _, rfl, rfl, C9_close_returns_once _ _ _ none [] rfl rfl⟩
/-! ## A failed fetch and the items -/

theorem rangeFetched_sameItems (f : List Item) (v w : LoopVars) (h : v.sameItems w) :
    (rangeFetched f v).1.sameItems (rangeFetched f w).1 ∧
      (rangeFetched f v).2 = (rangeFetched f w).2 := by
  induction f generalizing v w with
  | nil => exact ⟨h, rfl⟩
  | cons x rest ih =>
    obtain ⟨h1, h2, h3, h4⟩ := h
    by_cases hx : x.GUID ∈ v.seen
    · have hx' : x.GUID ∈ w.seen := h3 ▸ hx
      simp only [rangeFetched, hx, hx', if_true]
      exact ih v w ⟨h1, h2, h3, h4⟩
    · have hx' : x.GUID ∉ w.seen := h3 ▸ hx
      simp only [rangeFetched, hx, hx', if_false]
      have key := ih { v with pending := v.pending ++ [x], seen := x.GUID :: v.seen }
        { w with pending := w.pending ++ [x], seen := x.GUID :: w.seen }
        ⟨h1, by simp [h2], by simp [h3], h4⟩
      exact ⟨key.1, by rw [key.2]⟩

theorem onFetchDone_sameItems (v w : LoopVars) (r : fetchResult) (now : Time)
    (h : v.sameItems w) :
    (onFetchDone v r now).1.sameItems (onFetchDone w r now).1 ∧
      (onFetchDone v r now).2 = (onFetchDone w r now).2 := by
  obtain ⟨h1, h2, h3, h4⟩ := h
  cases herr : r.err with
  | some err =>
    rw [onFetchDone_failed _ _ _ (by simp [herr]), onFetchDone_failed _ _ _ (by simp [herr])]
    exact ⟨⟨rfl, h2, h3, h4⟩, rfl⟩
  | none =>
    rw [onFetchDone_ok _ _ _ herr, onFetchDone_ok _ _ _ herr]
    have key := rangeFetched_sameItems r.fetched
      { v with fetchDone := none, next := r.next, err := none }
      { w with fetchDone := none, next := r.next, err := none } ⟨rfl, h2, h3, h4⟩
    exact ⟨key.1, by rw [key.2]⟩

/-- Neither the cases that can fire nor the items they move depend on `next` and `err`. -/
theorem step_sameItems (c d c' : Config) (e : Event) (hv : c.vars.sameItems d.vars)
    (hs : sent c.log = sent d.log) (ha : appended c.log = appended d.log)
    (h : c.step e = some c') :
    ∃ d', d.step e = some d' ∧ c'.vars.sameItems d'.vars ∧ sent c'.log = sent d'.log ∧
      appended c'.log = appended d'.log := by
  obtain ⟨h1, h2, h3, h4⟩ := hv
  obtain ⟨hret, hcase⟩ := Config.step_cases h
  have hretd : d.vars.returned = false := h4 ▸ hret
  rcases hcase with ⟨now, fired, rfl, hnil, hlen, rfl⟩ | ⟨r, now, ch, rfl, hch, rfl⟩ |
    ⟨rfl, rfl⟩ | ⟨first, rest, rfl, hp, rfl⟩
  · refine ⟨{ vars := { d.vars with fetchDone := some { cap := 1 } },
              log := d.log ++ [Action.launch] }, ?_, ⟨rfl, h2, h3, h4⟩, ?_, ?_⟩
    · have hen : startFetchEnabled d.vars = true := by
        simp [startFetchEnabled, ← h1, ← h2, hnil, hlen]
      simp [Config.step, sub.loopStep, hretd, hen]
    · simp [sent_append, hs]
    · simp [appended_append, ha]
  · have key := onFetchDone_sameItems c.vars d.vars r now ⟨h1, h2, h3, h4⟩
    refine ⟨{ vars := (onFetchDone d.vars r now).1,
              log := d.log ++ (onFetchDone d.vars r now).2 }, ?_, key.1, ?_, ?_⟩
    · simp [Config.step, sub.loopStep, hretd, ← h1, hch]
    · simp [sent_append, hs, key.2]
    · simp [appended_append, ha, key.2]
  · refine ⟨{ vars := { d.vars with returned := true },
              log := d.log ++ [Action.reply d.vars.err, Action.closeUpdates] }, ?_,
        ⟨h1, h2, h3, rfl⟩, ?_, ?_⟩
    · simp [Config.step, sub.loopStep, hretd]
    · simp [sent_append, hs, sent]
    · simp [appended_append, ha, appended]
  · refine ⟨{ vars := { d.vars with pending := rest },
              log := d.log ++ [Action.send first] }, ?_, ⟨h1, rfl, h3, h4⟩, ?_, ?_⟩
    · simp [Config.step, sub.loopStep, hretd, ← h2, hp]
    · simp [sent_append, hs]
    · simp [appended_append, ha]

theorem loop_sameItems (es : List Event) (c d c' : Config) (hv : c.vars.sameItems d.vars)
    (hs : sent c.log = sent d.log) (ha : appended c.log = appended d.log)
    (h : sub.loop c es = some c') :
    ∃ d', sub.loop d es = some d' ∧ c'.vars.sameItems d'.vars ∧ sent c'.log = sent d'.log ∧
      appended c'.log = appended d'.log := by
  induction es generalizing c d with
  | nil =>
    simp only [sub.loop, Option.some.injEq] at h
    subst h
    exact ⟨d, rfl, hv, hs, ha⟩
  | cons e es ih =>
    simp only [sub.loop] at h
    cases hst : c.step e with
    | none => simp [hst] at h
    | some c1 =>
      simp only [hst] at h
      obtain ⟨d1, hd1, hv1, hs1, ha1⟩ := step_sameItems c d c1 e hv hs ha hst
      obtain ⟨d', hd', hrest⟩ := ih c1 d1 hv1 hs1 ha1 h
      exact ⟨d', by simp [sub.loop, hd1, hd'], hrest⟩

/-- C10: a failed fetch does not show on the side of the items. Whatever items, `next` and
error a failed result carries, receiving it leaves `pending` and `seen` as they were,
appends and sends nothing, and changes only `fetchDone` (cleared), `next` (the time read
plus ten seconds) and `err`; and along every later schedule the loop sends the same items
as it would had only `fetchDone` been cleared. -/
theorem C10_failed_fetch_is_invisible (v : LoopVars) (r : fetchResult) (now : Time)
    (hfail : r.err ≠ none) :
    onFetchDone v r now =
      ({ v with fetchDone := none, next := now + 10 * Second, err := r.err },
        [Action.recv r]) ∧
    (onFetchDone v r now).1.pending = v.pending ∧
    (onFetchDone v r now).1.seen = v.seen ∧
    sent (onFetchDone v r now).2 = [] ∧
    appended (onFetchDone v r now).2 = [] ∧
    ∀ (es : List Event) (c : Config),
      sub.loop { vars := (onFetchDone v r now).1, log := [] } es = some c →
      ∃ d, sub.loop { vars := { v with fetchDone := none }, log := [] } es = some d ∧
        sent c.log = sent d.log ∧ c.vars.pending = d.vars.pending ∧
        c.vars.seen = d.vars.seen := by
  have hsome : r.err.isSome = true := Option.isSome_iff_ne_none.mpr hfail
  rw [onFetchDone_failed v r now hsome]
  refine ⟨rfl, rfl, rfl, rfl, rfl, ?_⟩
  intro es c hc
  obtain ⟨d, hd, hv, hs, _⟩ := loop_sameItems es
    { vars := { v with fetchDone := none, next := Time.Add now (10 * Second), err := r.err },
      log := [] }
    { vars := { v with fetchDone := none }, log := [] } c ⟨rfl, rfl, rfl, rfl⟩ rfl rfl hc
  exact ⟨d, hd, hs, hv.2.1, hv.2.2.1⟩

/-- C10 at a loop with `b` pending and a fetch in flight: a failed result carrying the new
item `z` leaves `b` pending and `z` unseen. -/
theorem C10_failed_fetch_is_invisible_witness :
    (onFetchDone inFlight.vars { fetched := [item "z"], next := 0, err := some "timeout" } 7).1
        = { inFlight.vars with fetchDone := none, next := 10000000007, err := some "timeout" } ∧
      (onFetchDone inFlight.vars
        { fetched := [item "z"], next := 0, err := some "timeout" } 7).1.pending = [item "b"] :=
  ⟨congrArg Prod.fst (C10_failed_fetch_is_invisible inFlight.vars
      { fetched := [item "z"], next := 0, err := some "timeout" } 7 (by decide)).1,
    (C10_failed_fetch_is_invisible inFlight.vars
      { fetched := [item "z"], next := 0, err := some "timeout" } 7 (by decide)).2.1⟩
/-! ## The guard of the fetch case -/

theorem onFetchDone_pending (v : LoopVars) (r : fetchResult) (now : Time) :
    ∃ l : List Item, (onFetchDone v r now).1.pending = v.pending ++ l := by
  cases herr : r.err with
  | some err =>
    rw [onFetchDone_failed _ _ _ (by simp [herr])]
    exact ⟨[], by simp⟩
  | none =>
    rw [onFetchDone_ok _ _ _ herr]
    exact ⟨_, rangeFetched_pending _ _⟩

/-- Without a delivery `pending` does not get shorter. -/
theorem pending_length_mono (es : List Event) (c c' : Config)
    (h : sub.loop c es = some c') (hno : Event.send ∉ es) :
    c.vars.pending.length ≤ c'.vars.pending.length := by
  induction es generalizing c with
  | nil =>
    simp only [sub.loop, Option.some.injEq] at h
    rw [h]
  | cons e es ih =>
    simp only [List.mem_cons, not_or] at hno
    simp only [sub.loop] at h
    cases hs : c.step e with
    | none => simp [hs] at h
    | some c1 =>
      simp only [hs] at h
      refine le_trans ?_ (ih c1 h hno.2)
      obtain ⟨_, hcase⟩ := Config.step_cases hs
      rcases hcase with ⟨_, _, _, _, _, rfl⟩ | ⟨r, now, _, _, _, rfl⟩ | ⟨_, rfl⟩ |
        ⟨_, _, he, _, _⟩
      · exact le_rfl
      · obtain ⟨l, hl⟩ := onFetchDone_pending c.vars r now
        show _ ≤ (onFetchDone c.vars r now).1.pending.length
        rw [hl, List.length_append]
        exact Nat.le_add_right _ _
      · exact le_rfl
      · exact absurd he.symm hno.1

theorem startFetch_isSome (c : Config) (now fired : Time) (hrun : c.vars.returned = false) :
    (c.step (Event.startFetch now fired)).isSome = true ↔
      (c.vars.fetchDone = none ∧ c.vars.pending.length < maxPending) := by
  constructor
  · intro h
    obtain ⟨c', hc'⟩ := Option.isSome_iff_exists.mp h
    obtain ⟨_, hcase⟩ := Config.step_cases hc'
    rcases hcase with ⟨_, _, _, hnil, hlen, _⟩ | ⟨_, _, _, he, _⟩ | ⟨he, _⟩ | ⟨_, _, he, _⟩
    · exact ⟨hnil, hlen⟩
    · cases he
    · cases he
    · cases he
  · rintro ⟨hnil, hlen⟩
    simp [Config.step, sub.loopStep, hrun, startFetchEnabled, hnil, hlen]

/-- C11: while the loop runs, the fetch case can fire exactly when `fetchDone` is nil and
`len(pending) < 10`; and from a state with ten or more items pending no fetch is launched
before a delivery: a schedule that ends in a fetch start holds a delivery, and the fetch
starts from a state with fewer than ten items pending. -/
theorem C11_start_fetch_guard (c : Config) (hrun : c.vars.returned = false) :
    (∀ now fired, (c.step (Event.startFetch now fired)).isSome = true ↔
      (c.vars.fetchDone = none ∧ c.vars.pending.length < 10)) ∧
    (10 ≤ c.vars.pending.length → ∀ es now fired c',
      sub.loop c (es ++ [Event.startFetch now fired]) = some c' →
      Event.send ∈ es ∧ ∃ c1, sub.loop c es = some c1 ∧ c1.vars.pending.length < 10) := by
  refine ⟨fun now fired => startFetch_isSome c now fired hrun, ?_⟩
  intro hten es now fired c' h
  obtain ⟨c1, h1, hs⟩ := sub.loop_concat h
  have hlt : c1.vars.pending.length < 10 := by
    obtain ⟨hr1, _⟩ := Config.step_cases hs
    exact ((startFetch_isSome c1 now fired hr1).mp (by simp [hs])).2
  refine ⟨?_, c1, h1, hlt⟩
  by_contra hno
  have := pending_length_mono es c c1 h1 hno
  omega

/-- C11 at a loop with ten items pending: the fetch case cannot fire, and fires after one
delivery. -/
theorem C11_start_fetch_guard_witness :
    tenPending.step (Event.startFetch 6 6) = none ∧
      (sub.loop tenPending [Event.send, Event.startFetch 6 6]).isSome = true ∧
      ((∀ now fired, (tenPending.step (Event.startFetch now fired)).isSome = true ↔
        (tenPending.vars.fetchDone = none ∧ tenPending.vars.pending.length < 10)) ∧
      (10 ≤ tenPending.vars.pending.length → ∀ es now fired c',
        sub.loop tenPending (es ++ [Event.startFetch now fired]) = some c' →
        Event.send ∈ es ∧
          ∃ c1, sub.loop tenPending es = some c1 ∧ c1.vars.pending.length < 10)) :=
  ⟨rfl, rfl, C11_start_fetch_guard tenPending rfl⟩
/-! ## A successful fetch result -/

/-- The range loop against the words of the specification: started with a `seen` that
holds the original `seen` and the GUIDs already passed, it appends the first unseen
occurrences and leaves `seen` grown by the GUIDs of the batch. -/
theorem rangeFetched_firstUnseen (f : List Item) (v : LoopVars) (seen0 : List String)
    (before : List Item)
    (hv : ∀ g, g ∈ v.seen ↔ g ∈ seen0 ∨ g ∈ before.map Item.GUID) :
    appended (rangeFetched f v).2 = firstUnseen seen0 before f ∧
    ∀ g, g ∈ (rangeFetched f v).1.seen ↔ g ∈ seen0 ∨ g ∈ (before ++ f).map Item.GUID := by
  induction f generalizing v before with
  | nil => simpa [rangeFetched, appended, firstUnseen] using hv
  | cons x rest ih =>
    by_cases hx : x.GUID ∈ v.seen
    · have hx' : x.GUID ∈ seen0 ∨ x.GUID ∈ before.map Item.GUID := (hv _).mp hx
      have key := ih v (before ++ [x]) (by
        intro g
        rw [hv g]
        simp only [List.map_append, List.map_cons, List.map_nil, List.mem_append,
          List.mem_singleton]
        constructor
        · rintro (h | h)
          · exact Or.inl h
          · exact Or.inr (Or.inl h)
        · rintro (h | h | h)
          · exact Or.inl h
          · exact Or.inr h
          · exact h ▸ hx')
      simp only [rangeFetched, hx, if_true, firstUnseen, hx']
      simpa using key
    · have hx' : ¬ (x.GUID ∈ seen0 ∨ x.GUID ∈ before.map Item.GUID) := fun h => hx ((hv _).mpr h)
      have key := ih { v with pending := v.pending ++ [x], seen := x.GUID :: v.seen }
        (before ++ [x]) (by
        intro g
        simp only [List.mem_cons, hv g, List.map_append, List.map_cons, List.map_nil,
          List.mem_append, List.not_mem_nil, or_false]
        tauto)
      simp only [rangeFetched, hx, if_false, firstUnseen, hx', appended]
      refine ⟨by rw [key.1], ?_⟩
      simpa using key.2

/-- C12: receiving a successful fetch result (`err` nil) with items `fetched` and time
`next` clears `fetchDone`, sets `next` to the reported time, appends to `pending`, in
order, the first occurrence of each GUID of `fetched` that is not in `seen`, and leaves
in `seen` the GUIDs it held together with those of `fetched`. -/
theorem C12_successful_fetch_result (v : LoopVars) (r : fetchResult) (now : Time)
    (hok : r.err = none) :
    (onFetchDone v r now).1.fetchDone = none ∧
    (onFetchDone v r now).1.next = r.next ∧
    (onFetchDone v r now).1.err = none ∧
    (onFetchDone v r now).1.pending = v.pending ++ firstUnseen v.seen [] r.fetched ∧
    (∀ g, g ∈ (onFetchDone v r now).1.seen ↔ g ∈ v.seen ∨ g ∈ r.fetched.map Item.GUID) ∧
    (onFetchDone v r now).2 =
      Action.recv r :: (firstUnseen v.seen [] r.fetched).map Action.append := by
  rw [onFetchDone_ok v r now hok]
  have hfr := rangeFetched_frame r.fetched
    { v with fetchDone := none, next := r.next, err := none }
  have hp := rangeFetched_pending r.fetched
    { v with fetchDone := none, next := r.next, err := none }
  have ha := rangeFetched_actions r.fetched
    { v with fetchDone := none, next := r.next, err := none }
  have hsp := rangeFetched_firstUnseen r.fetched
    { v with fetchDone := none, next := r.next, err := none } v.seen [] (by simp)
  refine ⟨hfr.1, hfr.2.1, hfr.2.2.1, ?_, ?_, ?_⟩
  · rw [← hsp.1]
    exact hp
  · simpa using hsp.2
  · rw [← hsp.1]
    exact congrArg _ ha

/-- C12 on a batch `a, c, c, d` received with `a` and `b` seen: `c` and `d` are appended
once each. -/
theorem C12_successful_fetch_result_witness :
    (onFetchDone inFlight12
        { fetched := [item "a", item "c", item "c", item "d"], next := 9, err := none } 7).1 =
      { fetchDone := none, pending := [item "b", item "c", item "d"], next := 9, err := none,
        seen := ["d", "c", "b", "a"], returned := false } ∧
    (onFetchDone inFlight12
        { fetched := [item "a", item "c", item "c", item "d"], next := 9, err := none }
        7).1.pending = inFlight12.pending ++ [item "c", item "d"] :=
  ⟨rfl, (C12_successful_fetch_result inFlight12
      { fetched := [item "a", item "c", item "c", item "d"], next := 9, err := none } 7
      rfl).2.2.2.1⟩
/-! ## Nothing unseen is lost -/

theorem firstUnseen_append (seen : List String) (before xs ys : List Item) :
    firstUnseen seen before (xs ++ ys) =
      firstUnseen seen before xs ++ firstUnseen seen (before ++ xs) ys := by
  induction xs generalizing before with
  | nil => simp [firstUnseen]
  | cons x xs ih =>
    have key := ih (before ++ [x])
    simp only [List.append_assoc, List.singleton_append] at key
    by_cases hx : x.GUID ∈ seen ∨ x.GUID ∈ before.map Item.GUID
    · simp only [List.cons_append, firstUnseen, hx, if_true]
      exact key
    · simp only [List.cons_append, firstUnseen, hx, if_false]
      exact congrArg (List.cons x) key

theorem firstUnseen_congr (s1 s2 : List String) (b1 b2 f : List Item)
    (h : ∀ g, (g ∈ s1 ∨ g ∈ b1.map Item.GUID) ↔ (g ∈ s2 ∨ g ∈ b2.map Item.GUID)) :
    firstUnseen s1 b1 f = firstUnseen s2 b2 f := by
  induction f generalizing b1 b2 with
  | nil => rfl
  | cons x rest ih =>
    have hrec := ih (b1 ++ [x]) (b2 ++ [x]) (by
      intro g
      have := h g
      simp only [List.map_append, List.map_cons, List.map_nil, List.mem_append,
        List.mem_singleton]
      tauto)
    simp only [firstUnseen, h x.GUID, hrec]

theorem okBatches_append (a b : List Action) :
    okBatches (a ++ b) = okBatches a ++ okBatches b := by
  simp [okBatches, received_append]

theorem okBatches_recv (r : fetchResult) (l : List Item) :
    okBatches (Action.recv r :: l.map Action.append) = if r.err.isNone then r.fetched else [] := by
  simp only [okBatches, received_recv]
  by_cases h : r.err.isNone = true
  · simp [h]
  · simp [h]

/-- The appends are the first occurrences, by GUID, of the items successfully fetched, and
`seen` holds exactly their GUIDs. -/
theorem appended_eq_firstUnseen (es : List Event) (c : Config)
    (h : sub.loop Subscribe es = some c) :
    appended c.log = firstUnseen [] [] (okBatches c.log) ∧
    ∀ g, g ∈ c.vars.seen ↔ g ∈ (okBatches c.log).map Item.GUID := by
  refine sub.loop_induction
    (fun c => appended c.log = firstUnseen [] [] (okBatches c.log) ∧
      ∀ g, g ∈ c.vars.seen ↔ g ∈ (okBatches c.log).map Item.GUID) ?_ es
    Subscribe c (by simp [Subscribe, LoopVars.init, appended, okBatches, received, firstUnseen]) h
  intro c e c' hc hs
  obtain ⟨hA, hS⟩ := hc
  obtain ⟨_, hcase⟩ := Config.step_cases hs
  rcases hcase with ⟨now, fired, _, _, _, rfl⟩ | ⟨r, now, ch, _, _, rfl⟩ | ⟨_, rfl⟩ |
    ⟨first, rest, _, hp, rfl⟩
  · have h1 : okBatches [Action.launch] = [] := rfl
    simp only [appended_append, okBatches_append, h1, List.append_nil, appended]
    exact ⟨hA, hS⟩
  · cases herr : r.err with
    | some err =>
      rw [onFetchDone_failed _ _ _ (by simp [herr])]
      have h1 : okBatches [Action.recv r] = [] := by
        have := okBatches_recv r []
        simpa [herr] using this
      simp only [appended_append, okBatches_append, h1, List.append_nil, appended]
      exact ⟨hA, hS⟩
    | none =>
      rw [onFetchDone_ok _ _ _ herr]
      have ha := rangeFetched_actions r.fetched
        { c.vars with fetchDone := none, next := r.next, err := none }
      have hsp := rangeFetched_firstUnseen r.fetched
        { c.vars with fetchDone := none, next := r.next, err := none } c.vars.seen []
        (by simp)
      have h1 : okBatches (Action.recv r :: (rangeFetched r.fetched
          { c.vars with fetchDone := none, next := r.next, err := none }).2) = r.fetched := by
        rw [ha, okBatches_recv]
        simp [herr]
      simp only [appended_append, okBatches_append, h1, appended]
      constructor
      · rw [firstUnseen_append, ← hA, hsp.1]
        congr 1
        exact firstUnseen_congr _ _ _ _ _ (by
          intro g
          simp [hS g])
      · intro g
        rw [hsp.2 g, hS g]
        simp
  · have h1 : okBatches [Action.reply c.vars.err, Action.closeUpdates] = [] := rfl
    simp only [appended_append, okBatches_append, h1, List.append_nil, appended]
    exact ⟨hA, hS⟩
  · have h1 : okBatches [Action.send first] = [] := rfl
    simp only [appended_append, okBatches_append, h1, List.append_nil, appended]
    exact ⟨hA, hS⟩

/-- C13: no unseen item is lost. Along every schedule (with or without a close request)
the items sent followed by the items pending are the first occurrences, by GUID, of the
concatenation of the batches of the successful fetch results received, in order. -/
theorem C13_no_unseen_item_lost (es : List Event) (c : Config)
    (h : sub.loop Subscribe es = some c) :
    sent c.log ++ c.vars.pending = firstUnseen [] [] (okBatches c.log) := by
  rw [← (Config.Coherent_loop es c h).1]
  exact (appended_eq_firstUnseen es c h).1

/-- C13 on the scenario of the specification: batches `a, b` and `b, c`, then three
deliveries, send exactly `a`, `b`, `c`. -/
theorem C13_no_unseen_item_lost_witness :
    ∃ c, sub.loop Subscribe schedule13 = some c ∧
      okBatches c.log = [item "a", item "b", item "b", item "c"] ∧
      sent c.log = [item "a", item "b", item "c"] ∧ c.vars.pending = [] ∧
      sent c.log ++ c.vars.pending = firstUnseen [] [] (okBatches c.log) :=
  ⟨_, rfl, rfl, rfl, rfl, C13_no_unseen_item_lost schedule13 _ rfl⟩
/-! ## The send case -/

/-- C14: while the loop runs, the send case can fire exactly when `pending` is not empty;
when it fires it sends the head of `pending` and leaves the rest as the new `pending`,
with `seen`, `next`, `err` and `fetchDone` untouched; and the source's accesses
`pending[0]` and `pending[1:]` are never evaluated on an empty `pending`: the send case
written with the panicking accesses never panics and does what the step does. -/
theorem C14_send_case (v : LoopVars) (hrun : v.returned = false) :
    ((sub.loopStep v Event.send).isSome = true ↔ v.pending ≠ []) ∧
    (∀ first rest, v.pending = first :: rest →
      sub.loopStep v Event.send =
        some ({ fetchDone := v.fetchDone, pending := rest, next := v.next, err := v.err,
                seen := v.seen, returned := v.returned }, [Action.send first])) ∧
    sendCase v = (sub.loopStep v Event.send).map Except.ok := by
  cases hp : v.pending with
  | nil =>
    refine ⟨by simp [sub.loopStep, hrun, hp], ?_, ?_⟩
    · intro first rest h
      cases h
    · simp [sendCase, sub.loopStep, hrun, hp]
  | cons x xs =>
    refine ⟨by simp [sub.loopStep, hrun, hp], ?_, ?_⟩
    · intro first rest h
      cases h
      simp [sub.loopStep, hrun, hp]
    · simp [sendCase, sub.loopStep, hrun, hp, index0, sliceFrom1]

/-- C14 at a loop with `b` pending: `b` is sent and `pending` is left empty. -/
theorem C14_send_case_witness :
    sub.loopStep inFlight12 Event.send =
        some ({ inFlight12 with pending := [] }, [Action.send (item "b")]) ∧
      sendCase inFlight12 =
        some (Except.ok ({ inFlight12 with pending := [] }, [Action.send (item "b")])) ∧
      sendCase inFlight12 = (sub.loopStep inFlight12 Event.send).map Except.ok :=
  ⟨rfl, rfl, (C14_send_case inFlight12 rfl).2.2⟩
/-! ## The delay of the fetch timer -/

/-- The delay on plain integers. -/
theorem delay_eq (next now : Int) :
    (if now < next then
        (if 2 ^ 63 - 1 < next - now then 2 ^ 63 - 1
          else if next - now < -(2 ^ 63) then -(2 ^ 63) else next - now)
      else 0) = max 0 (min (next - now) (2 ^ 63 - 1)) := by
  split_ifs <;> omega

theorem fetchDelay_eq (next now : Time) :
    fetchDelay next now = max 0 (min (next - now) maxDuration) := by
  have h := delay_eq next now
  simpa [fetchDelay, Time.After, Time.Sub, maxDuration, minDuration] using h

/-- C15, as stated, fails: with `next` 2^63 ns (about 292 years) after `now`, the delay is
the largest `Duration`, 2^63 - 1 ns, and not `next - now`. -/
theorem C15_delay_saturates :
    fetchDelay (2 ^ 63) 0 = 2 ^ 63 - 1 ∧ fetchDelay (2 ^ 63) 0 ≠ max 0 (2 ^ 63 - 0) := by
  decide

/-- C15, amended: the delay the loop arms the fetch timer with is `max(0, next - now)` cut
at the largest `Duration`: it is `next - now` when `next` is after `now` by no more than
the largest `Duration`, the largest `Duration` when `next` is further away, and 0 when
`next` is not after `now`; with the initial `next` (the zero time) it is 0 for every
`now` not before the zero time. -/
theorem C15_fetch_delay (next now : Time) :
    fetchDelay next now = max 0 (min (next - now) maxDuration) ∧
    (next - now ≤ maxDuration → fetchDelay next now = max 0 (next - now)) ∧
    (now < next → next - now ≤ maxDuration → fetchDelay next now = next - now) ∧
    (maxDuration < next - now → fetchDelay next now = maxDuration) ∧
    (next ≤ now → fetchDelay next now = 0) ∧
    (0 ≤ now → fetchDelay LoopVars.init.next now = 0) := by
  have hmax : (0 : Int) ≤ maxDuration := by decide
  refine ⟨fetchDelay_eq next now, ?_, ?_, ?_, ?_, ?_⟩
  · intro h
    rw [fetchDelay_eq, min_eq_left h]
  · intro hlt h
    rw [fetchDelay_eq, min_eq_left h]
    exact max_eq_right (by linarith)
  · intro h
    rw [fetchDelay_eq, min_eq_right (le_of_lt h)]
    exact max_eq_right hmax
  · intro h
    rw [fetchDelay_eq]
    refine max_eq_left ?_
    exact le_trans (min_le_left _ _) (by linarith)
  · intro h
    rw [fetchDelay_eq]
    refine max_eq_left ?_
    refine le_trans (min_le_left _ _) ?_
    show (0 : Int) - now ≤ 0
    linarith

/-- C15, amended, at `next` five seconds after `now`, and at the first iteration. -/
theorem C15_fetch_delay_witness :
    fetchDelay 5000000007 7 = 5000000000 ∧ fetchDelay LoopVars.init.next 7 = 0 ∧
      (fetchDelay 5000000007 7 = max 0 (min (5000000007 - 7) maxDuration) ∧
      (5000000007 - 7 ≤ maxDuration → fetchDelay 5000000007 7 = max 0 (5000000007 - 7)) ∧
      ((7 : Time) < 5000000007 → 5000000007 - 7 ≤ maxDuration →
        fetchDelay 5000000007 7 = 5000000007 - 7) ∧
      (maxDuration < 5000000007 - 7 → fetchDelay 5000000007 7 = maxDuration) ∧
      ((5000000007 : Time) ≤ 7 → fetchDelay 5000000007 7 = 0) ∧
      ((0 : Time) ≤ 7 → fetchDelay LoopVars.init.next 7 = 0)) :=
  ⟨by decide, by decide, C15_fetch_delay 5000000007 7⟩
/-! ## What `seen` holds -/

theorem rangeFetched_seen_sub (f : List Item) (v : LoopVars) (g : String)
    (h : g ∈ (rangeFetched f v).1.seen) :
    g ∈ v.seen ∨ g ∈ (appended (rangeFetched f v).2).map Item.GUID := by
  induction f generalizing v with
  | nil => exact Or.inl (by simpa [rangeFetched] using h)
  | cons x rest ih =>
    by_cases hx : x.GUID ∈ v.seen
    · simp only [rangeFetched, hx, if_true] at h ⊢
      exact ih v h
    · simp only [rangeFetched, hx, if_false] at h ⊢
      rcases ih _ h with h1 | h1
      · simp only [List.mem_cons] at h1
        rcases h1 with h1 | h1
        · exact Or.inr (by simp [appended, h1])
        · exact Or.inl h1
      · exact Or.inr (by
          simp only [appended, List.map_cons, List.mem_cons]
          exact Or.inr h1)

theorem onFetchDone_seen_mono (v : LoopVars) (r : fetchResult) (now : Time) (g : String)
    (h : g ∈ v.seen) : g ∈ (onFetchDone v r now).1.seen := by
  cases herr : r.err with
  | some err =>
    rw [onFetchDone_failed _ _ _ (by simp [herr])]
    exact h
  | none =>
    rw [onFetchDone_ok _ _ _ herr]
    exact rangeFetched_seen_mono _ _ g h

/-- No iteration removes a GUID from `seen`. -/
theorem step_seen_mono (c c' : Config) (e : Event) (h : c.step e = some c') (g : String)
    (hg : g ∈ c.vars.seen) : g ∈ c'.vars.seen := by
  obtain ⟨_, hcase⟩ := Config.step_cases h
  rcases hcase with ⟨_, _, _, _, _, rfl⟩ | ⟨r, now, _, _, _, rfl⟩ | ⟨_, rfl⟩ |
    ⟨_, _, _, _, rfl⟩
  · exact hg
  · exact onFetchDone_seen_mono _ _ _ g hg
  · exact hg
  · exact hg

/-- Every GUID in `seen` is the GUID of an item appended to `pending`. -/
theorem seen_sub_appended (es : List Event) (c : Config)
    (h : sub.loop Subscribe es = some c) :
    ∀ g, g ∈ c.vars.seen → g ∈ (appended c.log).map Item.GUID := by
  refine sub.loop_induction
    (fun c => ∀ g, g ∈ c.vars.seen → g ∈ (appended c.log).map Item.GUID) ?_ es
    Subscribe c (by simp [Subscribe, LoopVars.init]) h
  intro c e c' hc hs
  obtain ⟨_, hcase⟩ := Config.step_cases hs
  rcases hcase with ⟨_, _, _, _, _, rfl⟩ | ⟨r, now, _, _, _, rfl⟩ | ⟨_, rfl⟩ |
    ⟨_, _, _, _, rfl⟩
  · intro g hg
    simpa [appended_append, appended] using hc g hg
  · cases herr : r.err with
    | some err =>
      rw [onFetchDone_failed _ _ _ (by simp [herr])]
      intro g hg
      simpa [appended_append, appended] using hc g hg
    | none =>
      rw [onFetchDone_ok _ _ _ herr]
      intro g hg
      simp only [appended_append, appended, List.map_append, List.mem_append]
      rcases rangeFetched_seen_sub _ _ g hg with h1 | h1
      · exact Or.inl (hc g h1)
      · exact Or.inr h1
  · intro g hg
    simpa [appended_append, appended] using hc g hg
  · intro g hg
    simpa [appended_append, appended] using hc g hg

/-- C16: in every state the loop reaches, `seen` holds exactly the GUIDs of the items ever
appended to `pending`, which are the items sent together with the items pending; no
iteration removes a GUID from `seen`; and no two items of `pending` have the same GUID. -/
theorem C16_seen_is_appended_guids (es : List Event) (c : Config)
    (h : sub.loop Subscribe es = some c) :
    (∀ g, g ∈ c.vars.seen ↔ g ∈ (appended c.log).map Item.GUID) ∧
    (∀ g, g ∈ c.vars.seen ↔ g ∈ (sent c.log ++ c.vars.pending).map Item.GUID) ∧
    (∀ e c', c.step e = some c' → ∀ g, g ∈ c.vars.seen → g ∈ c'.vars.seen) ∧
    (c.vars.pending.map Item.GUID).Nodup := by
  obtain ⟨hA, hnd, hseen⟩ := Config.Coherent_loop es c h
  have hiff : ∀ g, g ∈ c.vars.seen ↔ g ∈ (appended c.log).map Item.GUID := by
    intro g
    constructor
    · exact seen_sub_appended es c h g
    · intro hg
      obtain ⟨x, hx, rfl⟩ := List.mem_map.mp hg
      exact hseen x hx
  refine ⟨hiff, ?_, fun e c' hs g hg => step_seen_mono c c' e hs g hg, ?_⟩
  · intro g
    rw [← hA]
    exact hiff g
  · rw [hA, List.map_append] at hnd
    exact (List.nodup_append.mp hnd).2.1

/-- C16 on the worked schedule cut with `c` pending: `seen` holds `a`, `b`, `c`. -/
theorem C16_seen_is_appended_guids_witness :
    ∃ c, sub.loop Subscribe (schedule1.take 8) = some c ∧
      c.vars.seen = ["c", "b", "a"] ∧
      (appended c.log).map Item.GUID = ["a", "b", "c"] ∧
      ((∀ g, g ∈ c.vars.seen ↔ g ∈ (appended c.log).map Item.GUID) ∧
      (∀ g, g ∈ c.vars.seen ↔ g ∈ (sent c.log ++ c.vars.pending).map Item.GUID) ∧
      (∀ e c', c.step e = some c' → ∀ g, g ∈ c.vars.seen → g ∈ c'.vars.seen) ∧
      (c.vars.pending.map Item.GUID).Nodup) :=
  ⟨_, rfl, rfl, rfl, C16_seen_is_appended_guids (schedule1.take 8) _ rfl⟩
/-! ## The bound on `pending` for bounded batches -/

theorem maxBatch_le (l : List Action) (k : Nat)
    (h : ∀ r ∈ received l, r.fetched.length ≤ k) : maxBatch l ≤ k := by
  unfold maxBatch
  generalize received l = rs at h
  induction rs with
  | nil => simp
  | cons r rs ih =>
    simp only [List.map_cons, List.foldr_cons]
    exact max_le (h r (List.mem_cons_self _ _))
      (ih (fun r' hr' => h r' (List.mem_cons_of_mem _ hr')))

/-- C18: if every batch the loop received holds at most `k` items, then `pending` holds at
most `9 + k` items; and while a fetch is in flight `pending` holds at most 9 items. -/
theorem C18_pending_le_nine_plus_k (es : List Event) (c : Config) (k : Nat)
    (h : sub.loop Subscribe es = some c)
    (hk : ∀ r ∈ received c.log, r.fetched.length ≤ k) :
    c.vars.pending.length ≤ 9 + k ∧
    (c.vars.fetchDone ≠ none → c.vars.pending.length ≤ 9) := by
  obtain ⟨hfl, hb⟩ := pending_bound es c h
  have hm := maxBatch_le c.log k hk
  simp only [maxPending] at hfl hb
  constructor
  · omega
  · intro hne
    have := hfl (Option.isSome_iff_ne_none.mpr hne)
    omega

/-- C18 on the batch of eleven items: with `k = 11` the bound `9 + k = 20` holds, and 11
items are pending. -/
theorem C18_pending_le_nine_plus_k_witness :
    ∃ c, sub.loop Subscribe schedule3 = some c ∧ c.vars.pending.length = 11 ∧
      (c.vars.pending.length ≤ 9 + 11 ∧
        (c.vars.fetchDone ≠ none → c.vars.pending.length ≤ 9)) :=
  ⟨_, rfl, rfl, C18_pending_le_nine_plus_k schedule3 _ 11 rfl (by decide)⟩

/-! ## The error kept for the closer -/

/-- Only the receipt of a fetch result changes `err`. -/
theorem step_err (c c' : Config) (e : Event) (h : c.step e = some c') :
    (e.isFetchDone = false → c'.vars.err = c.vars.err) ∧
    (∀ r now, e = Event.fetchDone r now → c'.vars.err = r.err) := by
  obtain ⟨_, hcase⟩ := Config.step_cases h
  rcases hcase with ⟨_, _, rfl, _, _, rfl⟩ | ⟨r, now, _, rfl, _, rfl⟩ | ⟨rfl, rfl⟩ |
    ⟨_, _, rfl, _, rfl⟩
  · exact ⟨fun _ => rfl, fun r now he => by cases he⟩
  · refine ⟨fun he => by simp [Event.isFetchDone] at he, fun r' now' he => ?_⟩
    cases he
    exact onFetchDone_err _ _ _
  · exact ⟨fun _ => rfl, fun r now he => by cases he⟩
  · exact ⟨fun _ => rfl, fun r now he => by cases he⟩

/-- C19: the error the loop hands to a closer is the error field of the most recent fetch
result it received, failed or not: in every state the loop reaches, `err` is `nil` if no
result was received or the most recent one succeeded and is that result's error
otherwise, and a `Close` made then returns it; an iteration that receives a result sets
`err` to the error of that result, and the other iterations (fetch start, delivery,
close) leave `err` as it is. -/
theorem C19_err_is_latest_result (es : List Event) (c : Config)
    (h : sub.loop Subscribe es = some c) :
    c.vars.err = lastErr (received c.log) ∧
    (received c.log = [] → c.vars.err = none) ∧
    (∀ rs r, received c.log = rs ++ [r] → c.vars.err = r.err) ∧
    (c.vars.returned = false →
      ∃ c', sub.Close c = some (lastErr (received c.log), c')) ∧
    (∀ e c', c.step e = some c' →
      (e.isFetchDone = false → c'.vars.err = c.vars.err) ∧
      (∀ r now, e = Event.fetchDone r now → c'.vars.err = r.err)) := by
  have herr := err_eq_lastErr es c h
  refine ⟨herr, ?_, ?_, ?_, fun e c' hs => step_err c c' e hs⟩
  · intro hnil
    rw [herr, hnil]
    rfl
  · intro rs r hrs
    rw [herr, hrs, lastErr_concat]
  · intro hrun
    refine ⟨{ vars := { c.vars with returned := true },
              log := c.log ++ [Action.reply c.vars.err, Action.closeUpdates] }, ?_⟩
    simp [sub.Close, sub.loopStep, hrun, replies, herr]

/-- C19 on a failure followed by a success: `err` is `nil` again and `Close` returns
`nil`. -/
theorem C19_err_is_latest_result_witness :
    ∃ c, sub.loop Subscribe (schedule1.take 7) = some c ∧
      (received c.log).map fetchResult.err = [none, some "timeout", none] ∧
      c.vars.err = none ∧
      (c.vars.err = lastErr (received c.log) ∧
      (received c.log = [] → c.vars.err = none) ∧
      (∀ rs r, received c.log = rs ++ [r] → c.vars.err = r.err) ∧
      (c.vars.returned = false →
        ∃ c', sub.Close c = some (lastErr (received c.log), c')) ∧
      (∀ e c', c.step e = some c' →
        (e.isFetchDone = false → c'.vars.err = c.vars.err) ∧
        (∀ r now, e = Event.fetchDone r now → c'.vars.err = r.err))) :=
  ⟨_, rfl, rfl, rfl, C19_err_is_latest_result (schedule1.take 7) _ rfl⟩
/-! ## The hand-off of a fetch result -/

theorem System.Handoff_init : System.init.Handoff := by
  simp [System.Handoff, System.init, Subscribe, LoopVars.init]

theorem System.Handoff_step (s s' : System) (e : SysEvent) (hs : s.Handoff)
    (h : s.step e = some s') : s'.Handoff := by
  cases e with
  | loop ev =>
    cases ev with
    | startFetch now fired =>
      simp only [System.step] at h
      cases hc : s.loop.step (Event.startFetch now fired) with
      | none => simp [hc] at h
      | some c =>
        simp only [hc, Option.some.injEq] at h
        subst h
        obtain ⟨_, hcase⟩ := Config.step_cases hc
        rcases hcase with ⟨_, _, _, hnil, _, rfl⟩ | ⟨_, _, _, he, _⟩ | ⟨he, _⟩ | ⟨_, _, he, _⟩
        · unfold System.Handoff at hs
          rw [hnil] at hs
          simp [System.Handoff, hs.1]
        · cases he
        · cases he
        · cases he
    | fetchDone r now =>
      simp only [System.step] at h
      cases hb : s.buffer with
      | nil => simp [hb] at h
      | cons x rest =>
        simp only [hb] at h
        by_cases hx : x = r
        · simp only [hx, if_true] at h
          cases hc : s.loop.step (Event.fetchDone r now) with
          | none => simp [hc] at h
          | some c =>
            simp only [hc, Option.some.injEq] at h
            subst h
            obtain ⟨_, hcase⟩ := Config.step_cases hc
            rcases hcase with ⟨_, _, he, _⟩ | ⟨r', now', ch, he, hch, rfl⟩ | ⟨he, _⟩ |
              ⟨_, _, he, _⟩
            · cases he
            · cases he
              unfold System.Handoff at hs
              rw [hch, hb] at hs
              have hrest : rest = [] := by
                rcases hs.2 with ⟨_, _, hnil⟩ | ⟨_, _, hlen⟩
                · cases hnil
                · simpa using hlen
              have hf : s.fetching = 0 := by
                rcases hs.2 with ⟨_, _, hnil⟩ | ⟨hf, _, _⟩
                · cases hnil
                · exact hf
              simp [System.Handoff, onFetchDone_fetchDone, hrest, hf]
            · cases he
            · cases he
        · simp [hx] at h
    | closing =>
      simp only [System.step] at h
      cases hc : s.loop.step Event.closing with
      | none => simp [hc] at h
      | some c =>
        simp only [hc, Option.some.injEq] at h
        subst h
        obtain ⟨_, hcase⟩ := Config.step_cases hc
        rcases hcase with ⟨_, _, he, _⟩ | ⟨_, _, _, he, _⟩ | ⟨_, rfl⟩ | ⟨_, _, he, _⟩
        · cases he
        · cases he
        · exact hs
        · cases he
    | send =>
      simp only [System.step] at h
      cases hc : s.loop.step Event.send with
      | none => simp [hc] at h
      | some c =>
        simp only [hc, Option.some.injEq] at h
        subst h
        obtain ⟨_, hcase⟩ := Config.step_cases hc
        rcases hcase with ⟨_, _, he, _⟩ | ⟨_, _, _, he, _⟩ | ⟨he, _⟩ | ⟨_, _, _, _, rfl⟩
        · cases he
        · cases he
        · cases he
        · exact hs
  | fetchReturns r =>
    simp only [System.step] at h
    by_cases hf : s.fetching = 0
    · simp [hf] at h
    · simp only [hf, if_false] at h
      unfold System.Handoff at hs
      cases hch : s.loop.vars.fetchDone with
      | none =>
        rw [hch] at hs
        exact absurd hs.1 hf
      | some ch =>
        rw [hch] at hs
        obtain ⟨hcap, hcases⟩ := hs
        rcases hcases with ⟨hf1, hs0, hnil⟩ | ⟨hf0, _, _⟩
        · simp only [hch, trySend, hnil, hcap, List.length_nil, Nat.lt_one_iff,
            if_true, List.nil_append, Option.some.injEq] at h
          subst h
          simp [System.Handoff, hch, hcap, hf1, hs0]
        · exact absurd hf0 hf

theorem System.Handoff_run (es : List SysEvent) (s s' : System) (hs : s.Handoff)
    (h : s.run es = some s') : s'.Handoff := by
  induction es generalizing s with
  | nil =>
    simp only [System.run, Option.some.injEq] at h
    exact h ▸ hs
  | cons e es ih =>
    simp only [System.run] at h
    cases hst : s.step e with
    | none => simp [hst] at h
    | some s1 =>
      simp only [hst] at h
      exact ih s1 (System.Handoff_step s s1 e hs hst) h
/-- The loop of the system runs as `sub.loop` does on the iterations of the schedule. -/
theorem System.run_loopEvents (es : List SysEvent) (s s' : System)
    (h : s.run es = some s') : sub.loop s.loop (loopEvents es) = some s'.loop := by
  induction es generalizing s with
  | nil =>
    simp only [System.run, Option.some.injEq] at h
    rw [h]
    rfl
  | cons e es ih =>
    simp only [System.run] at h
    cases hst : s.step e with
    | none => simp [hst] at h
    | some s1 =>
      simp only [hst] at h
      have hrec := ih s1 h
      cases e with
      | fetchReturns r =>
        simp only [System.step] at hst
        by_cases hf : s.fetching = 0
        · simp [hf] at hst
        · simp only [hf, if_false] at hst
          cases hb : trySend s.loop.vars.fetchDone s.buffer r with
          | none => simp [hb] at hst
          | some b =>
            simp only [hb, Option.some.injEq] at hst
            subst hst
            exact hrec
      | loop ev =>
        have hloop : s.loop.step ev = some s1.loop := by
          cases ev with
          | startFetch now fired =>
            simp only [System.step] at hst
            cases hc : s.loop.step (Event.startFetch now fired) with
            | none => simp [hc] at hst
            | some c =>
              simp only [hc, Option.some.injEq] at hst
              subst hst
              rfl
          | fetchDone r now =>
            simp only [System.step] at hst
            cases hb : s.buffer with
            | nil => simp [hb] at hst
            | cons x rest =>
              simp only [hb] at hst
              by_cases hx : x = r
              · simp only [hx, if_true] at hst
                cases hc : s.loop.step (Event.fetchDone r now) with
                | none => simp [hc] at hst
                | some c =>
                  simp only [hc, Option.some.injEq] at hst
                  subst hst
                  rfl
              · simp [hx] at hst
          | closing =>
            simp only [System.step] at hst
            cases hc : s.loop.step Event.closing with
            | none => simp [hc] at hst
            | some c =>
              simp only [hc, Option.some.injEq] at hst
              subst hst
              rfl
          | send =>
            simp only [System.step] at hst
            cases hc : s.loop.step Event.send with
            | none => simp [hc] at hst
            | some c =>
              simp only [hc, Option.some.injEq] at hst
              subst hst
              rfl
        simp only [loopEvents, sub.loop, hloop]
        exact hrec

/-- C17: the hand-off of a fetch result never blocks the fetching goroutine. In every
state the system reaches, with the loop running or returned, the channel `fetchDone`
holds has capacity 1 and has received one send or is about to receive the one send of
the one goroutine on its way; and whenever a goroutine is on its way, its send
`fetchDone <- result` finds room in the buffer and completes without anybody receiving,
whatever the result. -/
theorem C17_handoff_never_blocks (es : List SysEvent) (s : System)
    (h : System.run System.init es = some s) :
    (∀ ch, s.loop.vars.fetchDone = some ch → ch.cap = 1 ∧ s.sends + s.fetching = 1) ∧
    s.fetching ≤ 1 ∧
    (0 < s.fetching → ∀ r,
      trySend s.loop.vars.fetchDone s.buffer r = some [r] ∧
      ∃ s', s.step (SysEvent.fetchReturns r) = some s' ∧ s'.fetching = 0 ∧ s'.sends = 1 ∧
        s'.buffer = [r] ∧ s'.loop = s.loop) := by
  have hinv := System.Handoff_run es System.init s System.Handoff_init h
  unfold System.Handoff at hinv
  cases hch : s.loop.vars.fetchDone with
  | none =>
    rw [hch] at hinv
    refine ⟨?_, ?_, ?_⟩
    · intro ch hc
      cases hc
    · omega
    · intro hpos
      omega
  | some ch =>
    rw [hch] at hinv
    obtain ⟨hcap, hcases⟩ := hinv
    refine ⟨?_, ?_, ?_⟩
    · intro ch' hc
      cases hc
      refine ⟨hcap, ?_⟩
      rcases hcases with ⟨h1, h2, _⟩ | ⟨h1, h2, _⟩ <;> omega
    · rcases hcases with ⟨h1, _, _⟩ | ⟨h1, _, _⟩ <;> omega
    · intro hpos r
      rcases hcases with ⟨h1, h2, h3⟩ | ⟨h1, _, _⟩
      · have hsend : trySend (some ch) s.buffer r = some [r] := by
          simp [trySend, h3, hcap]
        refine ⟨hsend, ?_⟩
        simp [System.step, hch, hsend, h1, h2]
      · omega

/-- C17 when the subscription is closed while a fetch is in flight: the loop has returned,
the goroutine is still on its way, and its send completes. -/
theorem C17_handoff_never_blocks_witness :
    ∃ s, System.run System.init schedule17 = some s ∧
      s.loop.vars.returned = true ∧ s.fetching = 1 ∧
      (System.run s [SysEvent.fetchReturns { fetched := [item "a"], next := 5, err := none }]).isSome
        = true ∧
      ((∀ ch, s.loop.vars.fetchDone = some ch → ch.cap = 1 ∧ s.sends + s.fetching = 1) ∧
      s.fetching ≤ 1 ∧
      (0 < s.fetching → ∀ r,
        trySend s.loop.vars.fetchDone s.buffer r = some [r] ∧
        ∃ s', s.step (SysEvent.fetchReturns r) = some s' ∧ s'.fetching = 0 ∧ s'.sends = 1 ∧
          s'.buffer = [r] ∧ s'.loop = s.loop)) :=
  ⟨_, rfl, rfl, rfl, rfl, C17_handoff_never_blocks schedule17 _ rfl⟩
end fetcher
